import Mathlib

/-!
Verification of the series-aggregation and chart-rendering core of the
`iosapp2` repository.

The aggregation pass lives in `previewGraph` of
`apps/mobile/src/screens/VrmDashboardScreen.tsx`; the renderer
(`buildPath`, value-range / axis-tick computation, `handleTouch`) lives in
the interactive `LineChart` component.  JavaScript numbers are modelled by
an inductive type `JsNum` with explicit `NaN` and signed infinities over
exact rationals; `null` (and JS `undefined` merged with it where the code
treats them alike) is `Option.none`.
-/

namespace IosApp

/-- A JavaScript number: `NaN`, `+Infinity`, `-Infinity`, or a finite value
(modelled as an exact rational; overflow and negative zero are outside the
scope of the spec's claims). -/
inductive JsNum where
  | nan : JsNum
  | inf : JsNum
  | ninf : JsNum
  | fin (q : ℚ) : JsNum
deriving DecidableEq, Repr

/-- A JS `number | null` slot: `none` is `null`. -/
abbrev JV := Option JsNum

/-- `Number.isNaN`. -/
def JsNum.isNaN : JsNum → Bool
  | .nan => true
  | _ => false

/-- `Number.isFinite`. -/
def JsNum.isFinite : JsNum → Bool
  | .fin _ => true
  | _ => false

/-- IEEE-style addition on `JsNum` (exact on finite values). -/
def jsAdd : JsNum → JsNum → JsNum
  | .nan, _ => .nan
  | _, .nan => .nan
  | .inf, .ninf => .nan
  | .ninf, .inf => .nan
  | .inf, _ => .inf
  | _, .inf => .inf
  | .ninf, _ => .ninf
  | _, .ninf => .ninf
  | .fin a, .fin b => .fin (a + b)

/-- IEEE-style multiplication of a `JsNum` by a finite factor
(`infinity * 0 = NaN`). -/
def jsMulQ : JsNum → ℚ → JsNum
  | .nan, _ => .nan
  | .inf, q => if 0 < q then .inf else if q < 0 then .ninf else .nan
  | .ninf, q => if 0 < q then .ninf else if q < 0 then .inf else .nan
  | .fin a, q => .fin (a * q)

/-- IEEE-style subtraction on `JsNum`. -/
def jsSub : JsNum → JsNum → JsNum
  | .nan, _ => .nan
  | _, .nan => .nan
  | .inf, .inf => .nan
  | .ninf, .ninf => .nan
  | .inf, _ => .inf
  | .ninf, _ => .ninf
  | .fin _, .inf => .ninf
  | .fin _, .ninf => .inf
  | .fin a, .fin b => .fin (a - b)

/-- IEEE-style multiplication on `JsNum`. -/
def jsMul : JsNum → JsNum → JsNum
  | .nan, _ => .nan
  | _, .nan => .nan
  | .inf, .inf => .inf
  | .inf, .ninf => .ninf
  | .ninf, .inf => .ninf
  | .ninf, .ninf => .inf
  | .inf, .fin q => if 0 < q then .inf else if q < 0 then .ninf else .nan
  | .ninf, .fin q => if 0 < q then .ninf else if q < 0 then .inf else .nan
  | .fin q, .inf => if 0 < q then .inf else if q < 0 then .ninf else .nan
  | .fin q, .ninf => if 0 < q then .ninf else if q < 0 then .inf else .nan
  | .fin a, .fin b => .fin (a * b)

/-- IEEE-style division on `JsNum` (division of a nonzero finite value by
zero gives a signed infinity, assuming the positive zero the code produces). -/
def jsDiv : JsNum → JsNum → JsNum
  | .nan, _ => .nan
  | _, .nan => .nan
  | .inf, .inf => .nan
  | .inf, .ninf => .nan
  | .ninf, .inf => .nan
  | .ninf, .ninf => .nan
  | .inf, .fin q => if 0 ≤ q then .inf else .ninf
  | .ninf, .fin q => if 0 ≤ q then .ninf else .inf
  | .fin _, .inf => .fin 0
  | .fin _, .ninf => .fin 0
  | .fin a, .fin b =>
      if b = 0 then (if a = 0 then .nan else if 0 < a then .inf else .ninf)
      else .fin (a / b)

/-- Non-`NaN` comparison used to define `Math.min or max` (total order
`-∞ < finite < +∞`). -/
def jsLe : JsNum → JsNum → Bool
  | .ninf, _ => true
  | _, .ninf => false
  | _, .inf => true
  | .inf, _ => false
  | .fin a, .fin b => a ≤ b
  | .nan, _ => false
  | _, .nan => false

/-- `Math.min` on two values (`NaN` absorbs). -/
def jsMin (a b : JsNum) : JsNum :=
  if a.isNaN || b.isNaN then .nan else if jsLe a b then a else b

/-- `Math.max` on two values (`NaN` absorbs). -/
def jsMax (a b : JsNum) : JsNum :=
  if a.isNaN || b.isNaN then .nan else if jsLe a b then b else a

/-- The gap test the aggregation and renderer apply to a slot:
`value === null || Number.isNaN(value)`. -/
def isGap : JV → Bool
  | none => true
  | some v => v.isNaN

example : jsMulQ .inf 0 = .nan := by simp [jsMulQ]
example : jsAdd (.fin 2) (.fin 3) = .fin 5 := by norm_num [jsAdd]
example : jsMin .ninf (.fin 7) = .ninf := by simp [jsMin, jsLe, JsNum.isNaN]

/-! ## The aggregation pass (`previewGraph` in `VrmDashboardScreen.tsx`)

Timestamp parsing (`Date.parse`) is a platform builtin; the embedding takes
it as a parameter `dparse : String → Option ℚ`, `none` standing for a `NaN`
parse result.  Likewise `Number.parseFloat(column.scale || '1')` is
abstracted to its result `scaleParsed : JsNum` stored on the column. -/

/-- One point of a `HistoryCustomResponse`: `ts : string | null`,
`left`, `right : number | null`. -/
structure RawPoint where
  ts : Option String
  left : JV
  right : JV
deriving DecidableEq, Repr

/-- A column selection as the aggregation sees it: the outcome of
`Number.parseFloat(columns[index].scale || '1')`. -/
structure ColumnSel where
  scaleParsed : JsNum
deriving DecidableEq, Repr

/-- `const factor = Number.isFinite(scale) ? scale : 1`. -/
def factorOf (c : ColumnSel) : ℚ :=
  match c.scaleParsed with
  | .fin q => q
  | _ => 1

/-- One entry of `pointMap`: a timestamp key, its parsed epoch time and the
per-column value slots (initialised `[null, null, null, null]`). -/
structure Entry where
  ts : String
  time : ℚ
  values : List JV
deriving DecidableEq, Repr

/-- `const raw = point.left ?? point.right ?? null`. -/
def rawOf (p : RawPoint) : JV :=
  match p.left with
  | some v => some v
  | none => p.right

/-- `entry.values[index] = raw === null || Number.isNaN(raw) ? null : raw * factor`. -/
def coerceValue (raw : JV) (factor : ℚ) : JV :=
  match raw with
  | none => none
  | some v => if v.isNaN then none else some (jsMulQ v factor)

/-- Processing of one response point: skip when `!point.ts` or
`Date.parse` fails, otherwise insert a fresh entry if the key is new and
write the coerced value into slot `idx`. -/
def ingestPoint (dparse : String → Option ℚ) (idx : ℕ) (factor : ℚ)
    (m : List Entry) (p : RawPoint) : List Entry :=
  match p.ts with
  | none => m
  | some key =>
    if key = "" then m
    else
      match dparse key with
      | none => m
      | some time =>
        let m1 := if m.any (fun e => e.ts = key) then m
                  else m ++ [⟨key, time, List.replicate 4 none⟩]
        m1.map fun e =>
          if e.ts = key then { e with values := e.values.set idx (coerceValue (rawOf p) factor) }
          else e

/-- Processing of one response (`null` responses are skipped). -/
def ingestResponse (dparse : String → Option ℚ) (idx : ℕ) (col : ColumnSel)
    (resp : Option (List RawPoint)) (m : List Entry) : List Entry :=
  match resp with
  | none => m
  | some pts => pts.foldl (ingestPoint dparse idx (factorOf col)) m

/-- The full `responses.forEach((response, index) => ...)` loop.
`responses` is built by `columns.map`, so the two lists always have equal
length; the embedding zips them. -/
def ingestAll (dparse : String → Option ℚ) (columns : List ColumnSel)
    (responses : List (Option (List RawPoint))) : List Entry :=
  ((responses.zip columns).enum).foldl
    (fun m x => ingestResponse dparse x.1 x.2.2 x.2.1 m) []

/-- The comparator of `Array.from(pointMap.values()).sort((a, b) => a.time - b.time)`. -/
def entryLe (a b : Entry) : Prop := a.time ≤ b.time

instance : DecidableRel entryLe := fun a b => inferInstanceAs (Decidable (a.time ≤ b.time))

instance : IsTotal Entry entryLe := ⟨fun a b => le_total a.time b.time⟩

instance : IsTrans Entry entryLe := ⟨fun _ _ _ h h' => le_trans h h'⟩

/-- `pointMap` values sorted ascending by parsed time. -/
def sortEntries (l : List Entry) : List Entry := List.insertionSort entryLe l

/-- One step of the forward-fill loop over an entry's value row:
`entry.values.map((value, idx) => ...)` together with the updates to
`lastValues`.  In the program both lists have length 4. -/
def fillRow : List JV → List JV → List JV × List JV
  | v :: vs, last :: lasts =>
      let p := fillRow vs lasts
      if isGap v then (last :: p.1, last :: p.2) else (v :: p.1, v :: p.2)
  | _, _ => ([], [])

/-- `sorted.forEach((entry) => { ... entry.values = filled; })`. -/
def fillRows : List JV → List Entry → List Entry
  | _, [] => []
  | lasts, e :: rest =>
      let p := fillRow e.values lasts
      { e with values := p.1 } :: fillRows p.2 rest

/-- The merged timeline: the `sorted` array of `previewGraph` (before its
`values` rows are forward-filled in place; filling changes no timestamps). -/
def mergedTimeline (dparse : String → Option ℚ) (columns : List ColumnSel)
    (responses : List (Option (List RawPoint))) : List Entry :=
  sortEntries (ingestAll dparse columns responses)

/-- The aggregation pass: ingest every response, sort by time, forward-fill
(`lastValues` starts as `columns.map(() => null)`). -/
def aggregate (dparse : String → Option ℚ) (columns : List ColumnSel)
    (responses : List (Option (List RawPoint))) : List Entry :=
  fillRows (columns.map fun _ => none) (mergedTimeline dparse columns responses)

/-- The points of `chartSeries[idx]`:
`sorted.map((entry) => ({ ts: entry.time, value: entry.values[index] }))`. -/
def seriesPoints (agg : List Entry) (idx : ℕ) : List (ℚ × JV) :=
  agg.map fun e => (e.time, e.values.getD idx none)

/-- One iteration of `calcIncludes.forEach((include, idx) => ...)`:
skip excluded columns, skip `null`/`NaN` values, otherwise
`total = total === null ? value : total + value`. -/
def sumStep (total : JV) (p : Bool × JV) : JV :=
  if p.1 = false then total
  else
    match p.2 with
    | none => total
    | some v =>
      if v.isNaN then total
      else
        match total with
        | none => some v
        | some t => some (jsAdd t v)

/-- The body of the sum over one entry, with `total` starting at `null`. -/
def sumRow (includes : List Bool) (vals : List JV) : JV :=
  (includes.zip vals).foldl sumStep none

/-- The points of the `calculated-sum` series. -/
def sumPoints (includes : List Bool) (agg : List Entry) : List (ℚ × JV) :=
  agg.map fun e => (e.time, sumRow includes e.values)

/-- Forward fill of a single value sequence with an explicit carry: the
column-wise view of the `lastValues` loop. -/
def ffillGo (carry : JV) : List JV → List JV
  | [] => []
  | v :: vs => if isGap v then carry :: ffillGo carry vs else v :: ffillGo v vs

/-- Forward fill of a single value sequence (carry starts at `null`). -/
def ffill (vs : List JV) : List JV := ffillGo none vs

/-- Modelled from the spec (the code has no standalone `resample`; the spec
describes: for each timeline timestamp, use the series' exact sample value
there, else `null`). -/
def specResample (pts : List RawPoint) (key : String) : JV :=
  match pts.find? (fun p => p.ts = some key) with
  | some p => rawOf p
  | none => none

/-- Modelled from the spec (the code has no standalone `scale`; the spec
describes: multiply every non-null value by the factor, after forward-fill). -/
def specScale (factor : ℚ) (vs : List JV) : List JV :=
  vs.map fun v => v.map (fun x => jsMulQ x factor)

/-- Modelled from the spec: the per-series pipeline in the spec's order —
resample onto the timeline, then forward-fill, then scale. -/
def specPipeline (pts : List RawPoint) (timeline : List String) (factor : ℚ) : List JV :=
  specScale factor (ffill (timeline.map (specResample pts)))

/-! ## The chart renderer (interactive `LineChart`)

Pixel geometry (`width`, `height`, `min`, `max`, margins) is finite, so it
is carried as plain rationals; sample values stay in `JV` because the code
re-checks them for `null`or `NaN`.  String serialisation of the SVG path
(`toFixed(2)` formatting) is abstracted: a path is the list of its `M`/`L`
commands with exact coordinates. -/

/-- `ChartPoint` of the renderer: an epoch-millis timestamp and a nullable
value. -/
structure CPoint where
  ts : ℚ
  value : JV
deriving DecidableEq, Repr

/-- A series handed to `LineChart`. -/
structure CSeries where
  id : String
  name : String
  color : String
  points : List CPoint
deriving DecidableEq, Repr

/-- One SVG path command: `M x y` starts a fresh segment, `L x y` continues
the current one. -/
inductive PathCmd where
  | move (x : ℚ) (y : JsNum) : PathCmd
  | line (x : ℚ) (y : JsNum) : PathCmd
deriving DecidableEq, Repr

/-- `const ratio = (point.value - min) / range; const y = height - ratio * height`. -/
def yOf (height minv range : ℚ) (v : JsNum) : JsNum :=
  jsSub (.fin height) (jsMul (jsDiv (jsSub v (.fin minv)) (.fin range)) (.fin height))

/-- `const x = index === points.length - 1 ? width : index * step`. -/
def xAt (len : ℕ) (width step : ℚ) (i : ℕ) : ℚ :=
  if i = len - 1 then width else i * step

/-- Whether `buildPath` skips a point (the two early returns: a `null` or
`NaN` value, or a `NaN` computed `y`). -/
def skipPoint (height minv range : ℚ) (p : CPoint) : Bool :=
  match p.value with
  | none => true
  | some v => v.isNaN || (yOf height minv range v).isNaN

/-- The `points.forEach((point, index) => ...)` loop of `buildPath`:
`len` is the total point count, `step` the precomputed x spacing, `i` the
current index and `mv` the `move` flag. -/
def buildPathGo (len : ℕ) (width height minv range step : ℚ) :
    ℕ → Bool → List CPoint → List PathCmd
  | _, _, [] => []
  | i, mv, p :: rest =>
    match p.value with
    | none => buildPathGo len width height minv range step (i + 1) true rest
    | some v =>
      if v.isNaN || (yOf height minv range v).isNaN then
        buildPathGo len width height minv range step (i + 1) true rest
      else
        (if mv then PathCmd.move (xAt len width step i) (yOf height minv range v)
          else PathCmd.line (xAt len width step i) (yOf height minv range v)) ::
          buildPathGo len width height minv range step (i + 1) false rest

/-- `buildPath(points, width, height, min, max)`: empty input gives the
empty path; `range = max - min || 1`;
`step = points.length > 1 ? width / (points.length - 1) : width`. -/
def buildPath (points : List CPoint) (width height minv maxv : ℚ) : List PathCmd :=
  if points = [] then []
  else
    let range : ℚ := if maxv - minv = 0 then 1 else maxv - minv
    let step : ℚ := if points.length > 1 then width / (points.length - 1) else width
    buildPathGo points.length width height minv range step 0 true points

/-- Number of disjoint segments of a built path: one per `M` command. -/
def segCount (cmds : List PathCmd) : ℕ :=
  cmds.countP fun c => match c with | .move _ _ => true | .line _ _ => false

/-- The non-null, non-`NaN` values collected across all series by the
`info` memo of `LineChart`. -/
def collectValues (series : List CSeries) : List JsNum :=
  series.flatMap fun s =>
    s.points.filterMap fun pt =>
      match pt.value with
      | none => none
      | some v => if v.isNaN then none else some v

/-- `timeline = series.length ? series[0].points : []`. -/
def timelineOf (series : List CSeries) : List CPoint :=
  match series with
  | [] => []
  | s :: _ => s.points

/-- `Math.min(...values)` over a nonempty list (head used as start). -/
def jsListMin : JsNum → List JsNum → JsNum
  | a, [] => a
  | a, v :: vs => jsListMin (jsMin a v) vs

/-- `Math.max(...values)` over a nonempty list (head used as start). -/
def jsListMax : JsNum → List JsNum → JsNum
  | a, [] => a
  | a, v :: vs => jsListMax (jsMax a v) vs

/-- The value range and `hasData` flag of the `info` memo: placeholder
`(0, 1, false)` when no values or no timeline exist, otherwise
`(min, min === max ? min + 1 : max, true)`.  The width/height fields of
`info` depend on layout events and are not part of any claim. -/
def chartInfo (series : List CSeries) : JsNum × JsNum × Bool :=
  match collectValues series, timelineOf series with
  | [], _ => (.fin 0, .fin 1, false)
  | _ :: _, [] => (.fin 0, .fin 1, false)
  | v :: vs, _ :: _ =>
    let mn := jsListMin v vs
    let mx := jsListMax v vs
    (mn, if mn = mx then jsAdd mn (.fin 1) else mx, true)

/-- The three x-axis ticks: `(time, position)` pairs at the minimum,
midpoint and maximum timeline time, placed at the left edge, centre and
right edge of the plot.  `now` models the `Date.now()` fallback for an
empty timeline.  (The runtime-type filter on `ts` is vacuous here because
`CPoint.ts` is a number by construction.) -/
def xTicksOf (timeline : List CPoint) (now marginX chartWidth : ℚ) :
    List (ℚ × ℚ) :=
  let timeValues := timeline.map (·.ts)
  let minT : ℚ := match timeValues with | [] => now | t :: ts => ts.foldl min t
  let maxT : ℚ := match timeValues with | [] => now | t :: ts => ts.foldl max t
  let midT : ℚ := minT + (maxT - minT) / 2
  [(minT, marginX), (midT, marginX + chartWidth / 2), (maxT, marginX + chartWidth)]

/-- `Math.round`: round half away from zero is JS's round-half-up
(towards `+∞`), i.e. `⌊x + 1/2⌋`. -/
def jsRound (q : ℚ) : ℤ := ⌊q + 1 / 2⌋

/-- The index computation of `handleTouch`: clamp `x` into
`[marginX, marginX + chartWidth]`, divide by the width (guarded to 1 when
`chartWidth <= 0`) and round onto `[0, timelineLength - 1]`.  The
enclosing early return requires a nonempty timeline. -/
def mapPointerToIndex (x marginX chartWidth : ℚ) (timelineLength : ℕ) : ℤ :=
  let lower := marginX
  let upper := marginX + chartWidth
  let clamped := min (max x lower) upper
  let denominator : ℚ := if chartWidth ≤ 0 then 1 else chartWidth
  let ratio := (clamped - lower) / denominator
  if timelineLength > 1 then jsRound (ratio * ((timelineLength : ℚ) - 1)) else 0

/-! ## Properties of forward fill (claim C2) -/

/-- The most recent non-gap value of a sequence, given a starting carry:
the vocabulary in which forward fill is characterised. -/
def lastSeen : JV → List JV → JV
  | carry, [] => carry
  | carry, v :: vs => if isGap v then lastSeen carry vs else lastSeen v vs

theorem ffillGo_length (carry : JV) (vs : List JV) :
    (ffillGo carry vs).length = vs.length := by
  induction vs generalizing carry with
  | nil => rfl
  | cons v vs ih => simp only [ffillGo]; split <;> simp [ih]

theorem ffillGo_getD (carry : JV) (vs : List JV) (i : ℕ) (hi : i < vs.length) :
    (ffillGo carry vs).getD i none =
      if isGap (vs.getD i none) then lastSeen carry (vs.take i) else vs.getD i none := by
  induction vs generalizing carry i with
  | nil => simp at hi
  | cons v vs ih =>
    cases i with
    | zero =>
      simp only [ffillGo, List.getD_cons_zero, List.take_zero]
      cases h : isGap v <;> simp [h, lastSeen]
    | succ n =>
      have hn : n < vs.length := by simpa using hi
      simp only [ffillGo, List.getD_cons_succ, List.take_succ_cons, lastSeen]
      cases h : isGap v with
      | true => simpa [h] using ih carry n hn
      | false => simpa [h] using ih v n hn

/-- Claim C2 (amended): forward fill walks the resampled values in
timestamp order and replaces every gap (`null` or `NaN`) by the most recent
non-gap value seen so far in the same series; when no prior non-gap value
exists (leading gaps) the slot stays `null`.  Interior *and trailing* gaps
are filled — only the trailing-gap clause of the original claim fails. -/
theorem C2_forward_fill (vs : List JV) :
    (ffill vs).length = vs.length ∧
    ∀ i, i < vs.length →
      (ffill vs).getD i none =
        if isGap (vs.getD i none) then lastSeen none (vs.take i) else vs.getD i none :=
  ⟨ffillGo_length none vs, fun i hi => ffillGo_getD none vs i hi⟩

/-- Claim C2 witness: on `[null, 2, null]` the leading gap stays `null`
and the trailing gap is filled with `2`. -/
theorem C2_forward_fill_witness :
    (ffill [none, some (JsNum.fin 2), none]).getD 0 none = none ∧
    (ffill [none, some (JsNum.fin 2), none]).getD 2 none = some (JsNum.fin 2) := by
  have h := C2_forward_fill [none, some (JsNum.fin 2), none]
  constructor
  · have h0 := h.2 0 (by norm_num)
    simpa [isGap, lastSeen] using h0
  · have h2 := h.2 2 (by norm_num)
    simpa [isGap, lastSeen, JsNum.isNaN] using h2

/-- Claim C2 counterexample: the original claim states that trailing gaps
remain `null`, but forward-filling `[1, null]` yields `[1, 1]` — the
trailing slot holds `1`, not `null`. -/
theorem C2_counterexample :
    (ffill [some (JsNum.fin 1), none]).getD 1 none = some (JsNum.fin 1) ∧
    some (JsNum.fin 1) ≠ (none : JV) := by
  exact ⟨by simp [ffill, ffillGo, isGap, JsNum.isNaN], by simp⟩

/-! ## Properties of the sum series (claim C3) -/

/-- The included, non-gap values of a row of `(include, value)` pairs. -/
def includedOf (pairs : List (Bool × JV)) : List JsNum :=
  pairs.filterMap fun p =>
    if p.1 then
      match p.2 with
      | none => none
      | some v => if v.isNaN then none else some v
    else none

/-- The values of the included series that are non-null (and non-`NaN`) at
one timeline index. -/
def includedValues (includes : List Bool) (vals : List JV) : List JsNum :=
  includedOf (includes.zip vals)

theorem sumFold_some (pairs : List (Bool × JV)) (a : JsNum) :
    pairs.foldl sumStep (some a) = some ((includedOf pairs).foldl jsAdd a) := by
  induction pairs generalizing a with
  | nil => rfl
  | cons p rest ih =>
    rcases p with ⟨inc, v⟩
    cases inc with
    | false => simp [sumStep, includedOf, ih]
    | true =>
      cases v with
      | none => simp [sumStep, includedOf, ih]
      | some w =>
        cases h : w.isNaN with
        | true => simp [sumStep, includedOf, h, ih]
        | false => simp [sumStep, includedOf, h, ih]

theorem sumFold_none (pairs : List (Bool × JV)) :
    pairs.foldl sumStep none =
      match includedOf pairs with
      | [] => none
      | v :: vs => some (vs.foldl jsAdd v) := by
  induction pairs with
  | nil => rfl
  | cons p rest ih =>
    rcases p with ⟨inc, v⟩
    cases inc with
    | false => simpa [sumStep, includedOf] using ih
    | true =>
      cases v with
      | none => simpa [sumStep, includedOf] using ih
      | some w =>
        cases h : w.isNaN with
        | true => simpa [sumStep, includedOf, h] using ih
        | false => simp [sumStep, includedOf, h, sumFold_some]

theorem foldl_jsAdd_fin (qs : List ℚ) (a : ℚ) :
    (qs.map JsNum.fin).foldl jsAdd (.fin a) = .fin (a + qs.sum) := by
  induction qs generalizing a with
  | nil => simp
  | cons q qs ih => simp [jsAdd, ih]; ring

/-- Claim C3: the sum series takes, at every timeline index, exactly the
included series' non-null values; when every included series is `null`
(or `NaN`) there, the sum is `null`, never `0`; `null` entries are merely
skipped. -/
theorem C3_sum_null_safety (includes : List Bool) (agg : List Entry) :
    sumPoints includes agg = agg.map (fun e => (e.time, sumRow includes e.values)) ∧
    ∀ vals : List JV,
      (includedValues includes vals = [] → sumRow includes vals = none) ∧
      (∀ v vs, includedValues includes vals = v :: vs →
        sumRow includes vals = some (vs.foldl jsAdd v)) ∧
      (∀ q qs, includedValues includes vals = (q :: qs).map JsNum.fin →
        sumRow includes vals = some (.fin (q + qs.sum))) := by
  refine ⟨rfl, fun vals => ⟨?_, ?_, ?_⟩⟩
  · intro h
    have := sumFold_none (includes.zip vals)
    rw [includedValues] at h
    simpa [sumRow, h] using this
  · intro v vs h
    have := sumFold_none (includes.zip vals)
    rw [includedValues] at h
    simpa [sumRow, h] using this
  · intro q qs h
    have := sumFold_none (includes.zip vals)
    rw [includedValues] at h
    rw [sumRow, this, h]
    simp [foldl_jsAdd_fin]

/-- Claim C3 witness: with the default include mask `[true, true, false,
false]`, the row `[null, 3, 7, null]` sums to `3` (the excluded `7` and the
`null` are skipped), and the row `[null, null, 7, null]` sums to `null`. -/
theorem C3_sum_null_safety_witness :
    sumRow [true, true, false, false] [none, some (JsNum.fin 3), some (JsNum.fin 7), none]
      = some (JsNum.fin 3) ∧
    sumRow [true, true, false, false] [none, none, some (JsNum.fin 7), none] = none := by
  constructor
  · have h := (C3_sum_null_safety [true, true, false, false] []).2
      [none, some (JsNum.fin 3), some (JsNum.fin 7), none]
    have := h.2.2 3 []
      (by simp [includedValues, includedOf, JsNum.isNaN])
    simpa using this
  · have h := (C3_sum_null_safety [true, true, false, false] []).2
      [none, none, some (JsNum.fin 7), none]
    exact h.1 (by simp [includedValues, includedOf, JsNum.isNaN])

/-! ## Pointer-to-index mapping (claim C8) -/

theorem jsRound_nonneg {a : ℚ} (h : 0 ≤ a) : 0 ≤ jsRound a := by
  have : (0 : ℚ) ≤ a + 1 / 2 := by linarith
  exact Int.floor_nonneg.mpr this

theorem jsRound_le {a : ℚ} {n : ℤ} (h : a ≤ n) : jsRound a ≤ n := by
  rw [jsRound]
  have h2 : a + 1 / 2 < ((n + 1 : ℤ) : ℚ) := by push_cast; linarith
  have h3 := Int.floor_lt.mpr h2
  omega

/-- Claim C8: the pointer-to-index mapping always lands in
`[0, sampleCount - 1]` (for nonnegative plot width and a nonempty sample
sequence); an out-of-bounds `x` maps exactly as the nearest in-bounds
boundary, in-bounds `x` maps via `round(ratio * (sampleCount - 1))`, and a
single-sample timeline always maps to index `0`. -/
theorem C8_pointer_clamp (x marginX chartWidth : ℚ) (n : ℕ)
    (hcw : 0 ≤ chartWidth) (hn : 1 ≤ n) :
    (0 ≤ mapPointerToIndex x marginX chartWidth n ∧
      mapPointerToIndex x marginX chartWidth n ≤ (n : ℤ) - 1) ∧
    (x ≤ marginX →
      mapPointerToIndex x marginX chartWidth n = mapPointerToIndex marginX marginX chartWidth n ∧
      mapPointerToIndex x marginX chartWidth n = 0) ∧
    (marginX + chartWidth ≤ x →
      mapPointerToIndex x marginX chartWidth n
        = mapPointerToIndex (marginX + chartWidth) marginX chartWidth n) ∧
    (n = 1 → mapPointerToIndex x marginX chartWidth n = 0) ∧
    (marginX ≤ x → x ≤ marginX + chartWidth →
      mapPointerToIndex x marginX chartWidth n
        = if n > 1 then
            jsRound ((x - marginX) / (if chartWidth ≤ 0 then 1 else chartWidth) * ((n : ℚ) - 1))
          else 0) := by
  have hle : marginX ≤ marginX + chartWidth := by linarith
  refine ⟨?_, ?_, ?_, ?_, ?_⟩
  · -- bounds
    rcases le_or_lt chartWidth 0 with hc | hc
    · have hc0 : chartWidth = 0 := le_antisymm hc hcw
      have hcl : min (max x marginX) (marginX + chartWidth) - marginX = 0 := by
        rcases le_total x marginX with hx | hx
        · rw [max_eq_right hx, min_eq_left hle]; ring
        · rw [max_eq_left hx, hc0]
          have : min x (marginX + 0) - marginX ≤ 0 := by
            have := min_le_right x (marginX + 0)
            linarith
          have h2 : 0 ≤ min x (marginX + 0) - marginX := by
            have := le_min hx (by linarith : marginX ≤ marginX + 0)
            linarith
          linarith
      simp only [mapPointerToIndex, if_pos hc, hcl]
      rcases Nat.lt_or_ge 1 n with h1 | h1
      · rw [if_pos h1]
        constructor
        · exact jsRound_nonneg (by norm_num)
        · have : jsRound ((0 : ℚ) / 1 * ((n : ℚ) - 1)) = 0 := by
            norm_num [jsRound]
          rw [this]; omega
      · rw [if_neg (by omega)]; omega
    · have hnc : ¬ chartWidth ≤ 0 := not_le.mpr hc
      have hclo : marginX ≤ min (max x marginX) (marginX + chartWidth) :=
        le_min (le_max_right x marginX) hle
      have hchi : min (max x marginX) (marginX + chartWidth) ≤ marginX + chartWidth :=
        min_le_right _ _
      set cl := min (max x marginX) (marginX + chartWidth) with hcl
      have hr0 : 0 ≤ (cl - marginX) / chartWidth :=
        div_nonneg (by linarith) (le_of_lt hc)
      have hr1 : (cl - marginX) / chartWidth ≤ 1 := by
        rw [div_le_one hc]; linarith
      simp only [mapPointerToIndex, if_neg hnc, ← hcl]
      rcases Nat.lt_or_ge 1 n with h1 | h1
      · rw [if_pos h1]
        have hn1 : (0 : ℚ) ≤ (n : ℚ) - 1 := by
          have : (1 : ℚ) ≤ (n : ℚ) := by exact_mod_cast hn
          linarith
        constructor
        · exact jsRound_nonneg (mul_nonneg hr0 hn1)
        · refine jsRound_le ?_
          have : (cl - marginX) / chartWidth * ((n : ℚ) - 1) ≤ 1 * ((n : ℚ) - 1) :=
            mul_le_mul_of_nonneg_right hr1 hn1
          push_cast
          linarith
      · rw [if_neg (by omega)]; omega
  · -- left of the plot: same as the left boundary, which is index 0
    intro hx
    have hmx : max x marginX = marginX := max_eq_right hx
    have hmm : max marginX marginX = marginX := max_self marginX
    have hmin : min marginX (marginX + chartWidth) = marginX := min_eq_left hle
    constructor
    · simp only [mapPointerToIndex, hmx, hmm]
    · simp only [mapPointerToIndex, hmx, hmin, sub_self, zero_div, zero_mul]
      have : jsRound (0 : ℚ) = 0 := by norm_num [jsRound]
      split <;> simp [this]
  · -- right of the plot: same as the right boundary
    intro hx
    have hmx : max x marginX = x := max_eq_left (le_trans hle hx)
    have hmin : min x (marginX + chartWidth) = marginX + chartWidth := min_eq_right hx
    have hmx2 : max (marginX + chartWidth) marginX = marginX + chartWidth := max_eq_left hle
    have hmin2 : min (marginX + chartWidth) (marginX + chartWidth) = marginX + chartWidth :=
      min_self _
    simp only [mapPointerToIndex, hmx, hmin, hmx2, hmin2]
  · -- single sample: always index 0
    intro h1
    simp only [mapPointerToIndex, h1]
    norm_num
  · -- in-bounds x maps via round(ratio * (n - 1))
    intro hx1 hx2
    have hmx : max x marginX = x := max_eq_left hx1
    have hmin : min x (marginX + chartWidth) = x := min_eq_left hx2
    simp only [mapPointerToIndex, hmx, hmin]

/-- Claim C8 witness: with plot origin 20, width 160 and five samples, a
pointer 500 px left of the plot maps like the left boundary, to index 0. -/
theorem C8_pointer_clamp_witness :
    mapPointerToIndex (-480) 20 160 5 = mapPointerToIndex 20 20 160 5 ∧
    mapPointerToIndex (-480) 20 160 5 = 0 ∧
    0 ≤ mapPointerToIndex 100 20 160 5 ∧ mapPointerToIndex 100 20 160 5 ≤ 4 := by
  have hL := (C8_pointer_clamp (-480) 20 160 5 (by norm_num) (by norm_num)).2.1
    (by norm_num)
  have hB := (C8_pointer_clamp 100 20 160 5 (by norm_num) (by norm_num)).1
  exact ⟨hL.1, hL.2, hB.1, by exact_mod_cast hB.2⟩

/-! ## X-axis ticks (claim C9) -/

theorem foldl_min_le_start (t : ℚ) (ts : List ℚ) : ts.foldl min t ≤ t := by
  induction ts generalizing t with
  | nil => simp
  | cons x xs ih => exact le_trans (ih (min t x)) (min_le_left t x)

theorem foldl_min_le_of_mem (t : ℚ) (ts : List ℚ) : ∀ x ∈ ts, ts.foldl min t ≤ x := by
  induction ts generalizing t with
  | nil => simp
  | cons y ys ih =>
    intro x hx
    simp only [List.foldl_cons]
    rcases List.mem_cons.mp hx with h | h
    · subst h; exact le_trans (foldl_min_le_start _ _) (min_le_right t x)
    · exact ih (min t y) x h

theorem foldl_min_mem (t : ℚ) (ts : List ℚ) : ts.foldl min t ∈ t :: ts := by
  induction ts generalizing t with
  | nil => simp
  | cons x xs ih =>
    simp only [List.foldl_cons]
    rcases List.mem_cons.mp (ih (min t x)) with h | h
    · rcases min_choice t x with hc | hc
      · rw [h, hc]; exact List.mem_cons_self _ _
      · rw [h, hc]; exact List.mem_cons_of_mem _ (List.mem_cons_self _ _)
    · exact List.mem_cons_of_mem _ (List.mem_cons_of_mem _ h)

theorem foldl_max_start_le (t : ℚ) (ts : List ℚ) : t ≤ ts.foldl max t := by
  induction ts generalizing t with
  | nil => simp
  | cons x xs ih => exact le_trans (le_max_left t x) (ih (max t x))

theorem foldl_max_le_of_mem (t : ℚ) (ts : List ℚ) : ∀ x ∈ ts, x ≤ ts.foldl max t := by
  induction ts generalizing t with
  | nil => simp
  | cons y ys ih =>
    intro x hx
    simp only [List.foldl_cons]
    rcases List.mem_cons.mp hx with h | h
    · subst h; exact le_trans (le_max_right t x) (foldl_max_start_le _ _)
    · exact ih (max t y) x h

theorem foldl_max_mem (t : ℚ) (ts : List ℚ) : ts.foldl max t ∈ t :: ts := by
  induction ts generalizing t with
  | nil => simp
  | cons x xs ih =>
    simp only [List.foldl_cons]
    rcases List.mem_cons.mp (ih (max t x)) with h | h
    · rcases max_choice t x with hc | hc
      · rw [h, hc]; exact List.mem_cons_self _ _
      · rw [h, hc]; exact List.mem_cons_of_mem _ (List.mem_cons_self _ _)
    · exact List.mem_cons_of_mem _ (List.mem_cons_of_mem _ h)

theorem sorted_le_getLast (l : List ℚ) (hs : List.Pairwise (· ≤ ·) l) :
    ∀ x ∈ l, ∀ y, l.getLast? = some y → x ≤ y := by
  induction l with
  | nil => simp
  | cons a rest ih =>
    intro x hx y hy
    cases rest with
    | nil =>
      simp only [List.getLast?_singleton, Option.some.injEq] at hy
      subst hy
      rcases List.mem_singleton.mp hx with h
      exact le_of_eq h
    | cons b rest2 =>
      have hy2 : (b :: rest2).getLast? = some y := by
        rwa [List.getLast?_cons_cons] at hy
      rcases List.mem_cons.mp hx with h | h
      · subst h
        have hmem : y ∈ b :: rest2 := by
          obtain ⟨hne, hEq⟩ := List.mem_getLast?_eq_getLast (Option.mem_def.mpr hy2)
          exact hEq ▸ List.getLast_mem hne
        exact (List.pairwise_cons.mp hs).1 y hmem
      · exact ih (List.pairwise_cons.mp hs).2 x h y hy2

/-- Claim C9 (amended): the tick computation always produces exactly three
ticks, whose times are the minimum timeline time, the midpoint
`min + (max - min) / 2` and the maximum timeline time, and whose pixel
positions are the left edge, centre and right edge of the plot.  For a
sorted nonempty timeline the outer tick times are the first and last
timestamps.  In the degenerate cases the three tick *times* coincide (all
equal to the single timestamp, or to `now` for an empty timeline) while
the three positions stay distinct; the midpoint involves no division by a
data-dependent quantity, so no division by zero can occur. -/
theorem C9_axis_ticks (timeline : List CPoint) (now marginX chartWidth : ℚ) :
    ∃ t0 t2 : ℚ,
      xTicksOf timeline now marginX chartWidth =
        [(t0, marginX), (t0 + (t2 - t0) / 2, marginX + chartWidth / 2),
          (t2, marginX + chartWidth)] ∧
      (∀ pt ∈ timeline, t0 ≤ pt.ts ∧ pt.ts ≤ t2) ∧
      t0 ∈ now :: timeline.map (·.ts) ∧
      t2 ∈ now :: timeline.map (·.ts) ∧
      (timeline = [] → t0 = now ∧ t2 = now) ∧
      (∀ c : ℚ, (∀ pt ∈ timeline, pt.ts = c) → timeline ≠ [] → t0 = c ∧ t2 = c) ∧
      (List.Pairwise (· ≤ ·) (timeline.map (·.ts)) →
        ∀ p rest, timeline = p :: rest →
          t0 = p.ts ∧ (timeline.map (·.ts)).getLast? = some t2) := by
  cases timeline with
  | nil =>
    refine ⟨now, now, ?_, ?_, ?_, ?_, ?_, ?_, ?_⟩ <;>
      simp [xTicksOf]
  | cons p rest =>
    set ts := rest.map (·.ts) with hts
    refine ⟨ts.foldl min p.ts, ts.foldl max p.ts, ?_, ?_, ?_, ?_, ?_, ?_, ?_⟩
    · simp [xTicksOf, hts]
    · intro pt hpt
      rcases List.mem_cons.mp hpt with h | h
      · subst h
        exact ⟨foldl_min_le_start _ _, foldl_max_start_le _ _⟩
      · have hm : pt.ts ∈ ts := by
          rw [hts]; exact List.mem_map_of_mem _ h
        exact ⟨foldl_min_le_of_mem _ _ _ hm, foldl_max_le_of_mem _ _ _ hm⟩
    · refine List.mem_cons_of_mem _ ?_
      have h2 : List.foldl min p.ts ts ∈ (p :: rest).map (·.ts) := by
        simpa [hts] using foldl_min_mem p.ts ts
      exact h2
    · refine List.mem_cons_of_mem _ ?_
      have h2 : List.foldl max p.ts ts ∈ (p :: rest).map (·.ts) := by
        simpa [hts] using foldl_max_mem p.ts ts
      exact h2
    · intro h; exact absurd h (by simp)
    · intro c hc _
      have hconst : ∀ x ∈ p.ts :: ts, x = c := by
        intro x hx
        rcases List.mem_cons.mp hx with h | h
        · subst h; exact hc p (List.mem_cons_self _ _)
        · rw [hts] at h
          rcases List.mem_map.mp h with ⟨q, hq, hqx⟩
          subst hqx; exact hc q (List.mem_cons_of_mem _ hq)
      constructor
      · exact hconst _ (foldl_min_mem p.ts ts)
      · exact hconst _ (foldl_max_mem p.ts ts)
    · intro hsorted q rest2 heq
      injection heq with h1 h2
      subst h1; subst h2
      have hmap : (p :: rest).map (·.ts) = p.ts :: ts := by simp [hts]
      rw [hmap] at hsorted
      have hcons := List.pairwise_cons.mp hsorted
      constructor
      · refine le_antisymm (foldl_min_le_start _ _) ?_
        rcases List.mem_cons.mp (foldl_min_mem p.ts ts) with h | h
        · rw [h]
        · exact hcons.1 _ h
      · rw [hmap]
        cases hlast : (p.ts :: ts).getLast? with
        | none => simp at hlast
        | some y =>
          have hym : y ∈ (p.ts :: ts).getLast? := Option.mem_def.mpr hlast
          obtain ⟨hne, hEq⟩ := List.mem_getLast?_eq_getLast hym
          have hy : y ∈ p.ts :: ts := hEq ▸ List.getLast_mem hne
          have h1 : ts.foldl max p.ts ≤ y := by
            rcases List.mem_cons.mp (foldl_max_mem p.ts ts) with h | h
            · rw [h]
              exact sorted_le_getLast _ hsorted _ (List.mem_cons_self _ _) _ hlast
            · exact sorted_le_getLast _ hsorted _ (List.mem_cons_of_mem _ h) _ hlast
          have h2 : y ≤ ts.foldl max p.ts := by
            rcases List.mem_cons.mp hy with h | h
            · rw [h]; exact foldl_max_start_le _ _
            · exact foldl_max_le_of_mem _ _ _ h
          rw [le_antisymm h1 h2]

/-- Claim C9 witness: a single sample at `t0 = 1000` yields exactly three
ticks whose times all equal `1000` and whose positions are the plot's left
edge, centre and right edge; no exception (the computation is total). -/
theorem C9_axis_ticks_witness :
    xTicksOf [⟨1000, some (JsNum.fin 50)⟩] 0 20 160 =
      [(1000, 20), (1000, 100), (1000, 180)] := by
  rcases C9_axis_ticks [⟨1000, some (JsNum.fin 50)⟩] 0 20 160 with
    ⟨t0, t2, heq, _, _, _, _, hconst, _⟩
  have hc := hconst 1000 (by intro pt hpt; simp at hpt; rw [hpt]) (by simp)
  rw [heq, hc.1, hc.2]
  norm_num

/-- Claim C9 counterexample: the claim states that in the degenerate
single-timestamp case all three ticks collapse to the same position; but
the ticks carry explicit pixel positions at the left edge, centre and
right edge of the plot, which stay distinct (`20`, `100`, `180` for a plot
of origin 20 and width 160) even though the tick times coincide. -/
theorem C9_counterexample :
    (xTicksOf [⟨1000, some (JsNum.fin 50)⟩] 0 20 160).map Prod.snd = [20, 100, 180] ∧
    (20 : ℚ) ≠ 100 := by
  constructor
  · simp only [xTicksOf, List.map]
    norm_num
  · norm_num

/-! ## Value range (claim C6) -/

theorem jsListMin_const (c : ℚ) (vs : List JsNum) (a : JsNum) (ha : a = .fin c)
    (h : ∀ v ∈ vs, v = .fin c) : jsListMin a vs = .fin c := by
  induction vs generalizing a with
  | nil => simpa [jsListMin] using ha
  | cons v vs ih =>
    have hv : v = .fin c := h v (List.mem_cons_self _ _)
    have hmin : jsMin a v = .fin c := by
      subst ha; subst hv
      simp [jsMin, jsLe, JsNum.isNaN]
    simpa [jsListMin] using ih (jsMin a v) hmin (fun w hw => h w (List.mem_cons_of_mem _ hw))

theorem jsListMax_const (c : ℚ) (vs : List JsNum) (a : JsNum) (ha : a = .fin c)
    (h : ∀ v ∈ vs, v = .fin c) : jsListMax a vs = .fin c := by
  induction vs generalizing a with
  | nil => simpa [jsListMax] using ha
  | cons v vs ih =>
    have hv : v = .fin c := h v (List.mem_cons_self _ _)
    have hmax : jsMax a v = .fin c := by
      subst ha; subst hv
      simp [jsMax, jsLe, JsNum.isNaN]
    simpa [jsListMax] using ih (jsMax a v) hmax (fun w hw => h w (List.mem_cons_of_mem _ hw))

/-- Claim C6 (amended): when the data is non-degenerate and every collected
sample value equals a finite constant `c` (for instance `5`), the computed
range is `(c, c + 1)`: the maximum alone is widened by a fixed delta of
`1`, so `min = c < max` and `min == max` never holds — but the widening is
asymmetric and the returned minimum equals `c` rather than lying strictly
below it. -/
theorem C6_degenerate_range (series : List CSeries) (c : ℚ)
    (hne : collectValues series ≠ [])
    (hconst : ∀ v ∈ collectValues series, v = .fin c)
    (htl : timelineOf series ≠ []) :
    chartInfo series = (.fin c, .fin (c + 1), true) ∧ c < c + 1 := by
  refine ⟨?_, by linarith⟩
  cases hcv : collectValues series with
  | nil => exact absurd hcv hne
  | cons v vs =>
    cases htlv : timelineOf series with
    | nil => exact absurd htlv htl
    | cons p tl =>
      rw [hcv] at hconst
      have hmn : jsListMin v vs = .fin c :=
        jsListMin_const c vs v (hconst v (List.mem_cons_self _ _))
          (fun w hw => hconst w (List.mem_cons_of_mem _ hw))
      have hmx : jsListMax v vs = .fin c :=
        jsListMax_const c vs v (hconst v (List.mem_cons_self _ _))
          (fun w hw => hconst w (List.mem_cons_of_mem _ hw))
      simp only [chartInfo, hcv, htlv, hmn, hmx, if_pos rfl]
      norm_num [jsAdd]

/-- A flat demo input: one series, every value `5`. -/
def demoFlat : List CSeries :=
  [⟨"column-0", "ppv", "#1d4ed8", [⟨1000, some (.fin 5)⟩, ⟨2000, some (.fin 5)⟩]⟩]

/-- Claim C6 witness: on the all-`5` input the range is `(5, 6)`:
`min = 5 < 6 = max`, so `min == max` never holds. -/
theorem C6_degenerate_range_witness :
    chartInfo demoFlat = (.fin 5, .fin 6, true) ∧ (5 : ℚ) < 6 := by
  have hcv : collectValues demoFlat = [.fin 5, .fin 5] := by
    simp [collectValues, demoFlat, JsNum.isNaN]
  have h := C6_degenerate_range demoFlat 5
    (by rw [hcv]; simp)
    (by rw [hcv]
        intro v hv
        rcases List.mem_cons.mp hv with h | h
        · exact h
        · simpa using h)
    (by simp [timelineOf, demoFlat])
  refine ⟨?_, by norm_num⟩
  have h6 : (5 : ℚ) + 1 = 6 := by norm_num
  rw [h6] at h
  exact h.1

/-- Claim C6 counterexample: the claim demands `min < 5 < max` for the
all-`5` input, but the code widens only the maximum: the returned range is
`(5, 6)`, whose minimum is exactly `5`, not strictly below it. -/
theorem C6_counterexample :
    chartInfo demoFlat = (.fin 5, .fin 6, true) ∧
    ¬ ∃ a b : ℚ, (chartInfo demoFlat).1 = .fin a ∧ (chartInfo demoFlat).2.1 = .fin b ∧
      a < 5 ∧ 5 < b := by
  have h : chartInfo demoFlat = (.fin 5, .fin 6, true) := by
    have hmn : jsListMin (.fin 5) [.fin 5] = JsNum.fin 5 :=
      jsListMin_const 5 [.fin 5] _ rfl (by intro v hv; simpa using hv)
    have hmx : jsListMax (.fin 5) [.fin 5] = JsNum.fin 5 :=
      jsListMax_const 5 [.fin 5] _ rfl (by intro v hv; simpa using hv)
    have hcv : collectValues demoFlat = [.fin 5, .fin 5] := by
      simp [collectValues, demoFlat, JsNum.isNaN]
    have htlv : timelineOf demoFlat = [⟨1000, some (.fin 5)⟩, ⟨2000, some (.fin 5)⟩] := by
      simp [timelineOf, demoFlat]
    simp only [chartInfo, hcv, htlv, hmn, hmx, if_pos rfl]
    norm_num [jsAdd]
  refine ⟨h, ?_⟩
  rintro ⟨a, b, ha, hb, ha5, h5b⟩
  rw [h] at ha
  simp only [JsNum.fin.injEq] at ha
  rw [← ha] at ha5
  exact absurd ha5 (lt_irrefl 5)

/-! ## Path gaps (claim C7) -/

/-- The `move` flag left behind after processing a list of points: the flag
entering the next point depends only on whether the previous point was
skipped. -/
def moveEnd (height minv range : ℚ) : Bool → List CPoint → Bool
  | mv, [] => mv
  | _, p :: rest => moveEnd height minv range (skipPoint height minv range p) rest

theorem buildPathGo_cons_none (len : ℕ) (width height minv range step : ℚ)
    (i : ℕ) (mv : Bool) (p : CPoint) (rest : List CPoint) (hv : p.value = none) :
    buildPathGo len width height minv range step i mv (p :: rest) =
      buildPathGo len width height minv range step (i + 1) true rest := by
  simp [buildPathGo, hv]

theorem buildPathGo_cons_skip (len : ℕ) (width height minv range step : ℚ)
    (i : ℕ) (mv : Bool) (p : CPoint) (rest : List CPoint) (v : JsNum)
    (hv : p.value = some v) (hn : (v.isNaN || (yOf height minv range v).isNaN) = true) :
    buildPathGo len width height minv range step i mv (p :: rest) =
      buildPathGo len width height minv range step (i + 1) true rest := by
  simp [buildPathGo, hv, hn]

theorem buildPathGo_cons_draw (len : ℕ) (width height minv range step : ℚ)
    (i : ℕ) (mv : Bool) (p : CPoint) (rest : List CPoint) (v : JsNum)
    (hv : p.value = some v) (hn : (v.isNaN || (yOf height minv range v).isNaN) = false) :
    buildPathGo len width height minv range step i mv (p :: rest) =
      (if mv then PathCmd.move (xAt len width step i) (yOf height minv range v)
        else PathCmd.line (xAt len width step i) (yOf height minv range v)) ::
        buildPathGo len width height minv range step (i + 1) false rest := by
  simp [buildPathGo, hv, hn]

theorem moveEnd_cons (height minv range : ℚ) (mv : Bool) (p : CPoint)
    (rest : List CPoint) :
    moveEnd height minv range mv (p :: rest) =
      moveEnd height minv range (skipPoint height minv range p) rest := rfl

theorem skipPoint_eq_true_of_none (height minv range : ℚ) (p : CPoint)
    (hv : p.value = none) : skipPoint height minv range p = true := by
  simp [skipPoint, hv]

theorem skipPoint_eq_of_some (height minv range : ℚ) (p : CPoint) (v : JsNum)
    (hv : p.value = some v) :
    skipPoint height minv range p = (v.isNaN || (yOf height minv range v).isNaN) := by
  simp [skipPoint, hv]

theorem buildPathGo_append (len : ℕ) (width height minv range step : ℚ)
    (l₁ l₂ : List CPoint) (i : ℕ) (mv : Bool) :
    buildPathGo len width height minv range step i mv (l₁ ++ l₂) =
      buildPathGo len width height minv range step i mv l₁ ++
        buildPathGo len width height minv range step (i + l₁.length)
          (moveEnd height minv range mv l₁) l₂ := by
  induction l₁ generalizing i mv with
  | nil => simp [buildPathGo, moveEnd]
  | cons p rest ih =>
    have hidx : i + (p :: rest).length = (i + 1) + rest.length := by
      simp [List.length_cons]; omega
    cases hv : p.value with
    | none =>
      rw [List.cons_append, buildPathGo_cons_none _ _ _ _ _ _ _ _ _ _ hv,
        buildPathGo_cons_none _ _ _ _ _ _ _ _ _ _ hv, ih, moveEnd_cons,
        skipPoint_eq_true_of_none _ _ _ _ hv, hidx]
    | some v =>
      cases hn : (v.isNaN || (yOf height minv range v).isNaN) with
      | true =>
        rw [List.cons_append, buildPathGo_cons_skip _ _ _ _ _ _ _ _ _ _ _ hv hn,
          buildPathGo_cons_skip _ _ _ _ _ _ _ _ _ _ _ hv hn, ih, moveEnd_cons,
          skipPoint_eq_of_some _ _ _ _ _ hv, hn, hidx]
      | false =>
        rw [List.cons_append, buildPathGo_cons_draw _ _ _ _ _ _ _ _ _ _ _ hv hn,
          buildPathGo_cons_draw _ _ _ _ _ _ _ _ _ _ _ hv hn, ih, moveEnd_cons,
          skipPoint_eq_of_some _ _ _ _ _ hv, hn, hidx, List.cons_append]

theorem buildPathGo_one_move (len : ℕ) (width height minv range step : ℚ)
    (l : List CPoint) (i : ℕ)
    (h : ∃ p ∈ l, skipPoint height minv range p = false) :
    1 ≤ segCount (buildPathGo len width height minv range step i true l) := by
  induction l generalizing i with
  | nil => simp at h
  | cons p rest ih =>
    cases hv : p.value with
    | none =>
      rcases h with ⟨q, hq, hqs⟩
      rcases List.mem_cons.mp hq with rfl | hq2
      · rw [skipPoint_eq_true_of_none _ _ _ _ hv] at hqs; cases hqs
      · rw [buildPathGo_cons_none _ _ _ _ _ _ _ _ _ _ hv]
        exact ih (i + 1) ⟨q, hq2, hqs⟩
    | some v =>
      cases hn : (v.isNaN || (yOf height minv range v).isNaN) with
      | true =>
        rcases h with ⟨q, hq, hqs⟩
        rcases List.mem_cons.mp hq with rfl | hq2
        · rw [skipPoint_eq_of_some _ _ _ _ _ hv, hn] at hqs; cases hqs
        · rw [buildPathGo_cons_skip _ _ _ _ _ _ _ _ _ _ _ hv hn]
          exact ih (i + 1) ⟨q, hq2, hqs⟩
      | false =>
        rw [buildPathGo_cons_draw _ _ _ _ _ _ _ _ _ _ _ hv hn]
        simp [segCount, List.countP_cons]

/-- A finite-valued point is never skipped when the range is nonzero. -/
theorem skipPoint_fin (height minv range : ℚ) (p : CPoint) (q : ℚ)
    (hv : p.value = some (.fin q)) (hr : range ≠ 0) :
    skipPoint height minv range p = false := by
  have hy : yOf height minv range (.fin q) = .fin (height - (q - minv) / range * height) := by
    rw [yOf]
    simp [jsSub, jsDiv, jsMul, hr]
  rw [skipPoint_eq_of_some _ _ _ _ _ hv, hy]
  simp [JsNum.isNaN]

/-- Claim C7: a series whose value is `null` at an interior position, with
finite values somewhere before and somewhere after it, produces at least
two disjoint path segments (at least two `M` commands) — never one
continuous path across the gap. -/
theorem C7_path_gap (points : List CPoint) (width height minv maxv : ℚ)
    (i j k : ℕ) (hij : i < j) (hjk : j < k) (hk : k < points.length)
    (qi qk : ℚ)
    (hvi : (points.getD i ⟨0, none⟩).value = some (.fin qi))
    (hvj : (points.getD j ⟨0, none⟩).value = none)
    (hvk : (points.getD k ⟨0, none⟩).value = some (.fin qk)) :
    2 ≤ segCount (buildPath points width height minv maxv) := by
  have hj : j < points.length := lt_trans hjk hk
  have hi : i < points.length := lt_trans hij hj
  have hne : points ≠ [] := by
    intro h; rw [h] at hk; simp at hk
  set range : ℚ := if maxv - minv = 0 then 1 else maxv - minv with hrange
  have hr : range ≠ 0 := by
    rw [hrange]; split
    · norm_num
    · assumption
  set step : ℚ := if points.length > 1 then width / ((points.length : ℚ) - 1) else width
    with hstep
  have hbp : buildPath points width height minv maxv =
      buildPathGo points.length width height minv range step 0 true points := by
    rw [buildPath, if_neg hne]
  have hsplit : points.take j ++ points.getD j ⟨0, none⟩ :: points.drop (j + 1) = points := by
    rw [List.getD_eq_getElem _ _ hj, ← List.drop_eq_getElem_cons hj,
      List.take_append_drop]
  have happ := buildPathGo_append points.length width height minv range step
    (points.take j) (points.getD j ⟨0, none⟩ :: points.drop (j + 1)) 0 true
  rw [hsplit] at happ
  rw [buildPathGo_cons_none _ _ _ _ _ _ _ _ _ _ hvj] at happ
  rw [hbp, happ, segCount, List.countP_append]
  have hone : 1 ≤ segCount
      (buildPathGo points.length width height minv range step 0 true (points.take j)) := by
    refine buildPathGo_one_move _ _ _ _ _ _ _ _ ⟨(points.take j).getD i ⟨0, none⟩, ?_, ?_⟩
    · have hlt : i < (points.take j).length := by
        rw [List.length_take]; omega
      rw [List.getD_eq_getElem _ _ hlt]
      exact List.getElem_mem hlt
    · have hlt : i < (points.take j).length := by
        rw [List.length_take]; omega
      have heq : (points.take j).getD i ⟨0, none⟩ = points.getD i ⟨0, none⟩ := by
        rw [List.getD_eq_getElem _ _ hlt, List.getD_eq_getElem _ _ hi]
        exact List.getElem_take points
      rw [heq]
      exact skipPoint_fin height minv range _ qi hvi hr
  have htwo : 1 ≤ segCount
      (buildPathGo points.length width height minv range step
        (0 + (points.take j).length + 1) true (points.drop (j + 1))) := by
    refine buildPathGo_one_move _ _ _ _ _ _ _ _
      ⟨(points.drop (j + 1)).getD (k - (j + 1)) ⟨0, none⟩, ?_, ?_⟩
    · have hlt : k - (j + 1) < (points.drop (j + 1)).length := by
        rw [List.length_drop]; omega
      rw [List.getD_eq_getElem _ _ hlt]
      exact List.getElem_mem hlt
    · have hlt : k - (j + 1) < (points.drop (j + 1)).length := by
        rw [List.length_drop]; omega
      have heq : (points.drop (j + 1)).getD (k - (j + 1)) ⟨0, none⟩ =
          points.getD k ⟨0, none⟩ := by
        rw [List.getD_eq_getElem _ _ hlt, List.getD_eq_getElem _ _ hk]
        rw [List.getElem_drop points]
        congr 1
        omega
      rw [heq]
      exact skipPoint_fin height minv range _ qk hvk hr
  rw [segCount] at hone htwo
  omega

/-- Claim C7 witness: the series `[(0, 1), (1, null), (2, 3)]` (interior
null, finite values either side) yields a path with two `M` commands. -/
theorem C7_path_gap_witness :
    2 ≤ segCount (buildPath
      [⟨0, some (JsNum.fin 1)⟩, ⟨1, none⟩, ⟨2, some (JsNum.fin 3)⟩] 160 120 1 3) :=
  C7_path_gap _ 160 120 1 3 0 1 2 (by norm_num) (by norm_num) (by norm_num)
    1 3 rfl rfl rfl

/-! ## Ingestion invariants (claims C1, C4, C5, C10) -/

/-- The key under which a response point is stored, or `none` when the
point is skipped (`!point.ts`, or `Date.parse` returning `NaN`). -/
def pkey (dparse : String → Option ℚ) (p : RawPoint) : Option String :=
  match p.ts with
  | none => none
  | some key => if key = "" then none else if (dparse key).isSome then some key else none

theorem pkey_some_spec (dparse : String → Option ℚ) (p : RawPoint) (key : String)
    (h : pkey dparse p = some key) :
    p.ts = some key ∧ key ≠ "" ∧ (dparse key).isSome := by
  cases hts : p.ts with
  | none => simp [pkey, hts] at h
  | some s =>
    simp only [pkey, hts] at h
    by_cases hk : s = ""
    · simp [hk] at h
    · rw [if_neg hk] at h
      by_cases hd : (dparse s).isSome
      · rw [if_pos hd] at h
        injection h with h
        subst h
        exact ⟨rfl, hk, hd⟩
      · rw [if_neg hd] at h; cases h

theorem ingestPoint_eq (dparse : String → Option ℚ) (idx : ℕ) (f : ℚ)
    (m : List Entry) (p : RawPoint) :
    ingestPoint dparse idx f m p =
      match pkey dparse p with
      | none => m
      | some key =>
        (if m.any (fun e => e.ts = key) then m
         else m ++ [⟨key, (dparse key).getD 0, List.replicate 4 none⟩]).map
          fun e =>
            if e.ts = key then { e with values := e.values.set idx (coerceValue (rawOf p) f) }
            else e := by
  cases hts : p.ts with
  | none => simp [ingestPoint, pkey, hts]
  | some key =>
    by_cases hk : key = ""
    · simp [ingestPoint, pkey, hts, hk]
    · cases hd : dparse key with
      | none => simp [ingestPoint, pkey, hts, hk, hd]
      | some t => simp [ingestPoint, pkey, hts, hk, hd]

/-- Generic preservation of a predicate along `List.foldl`. -/
theorem foldl_preserve {α β : Type} (P : α → Prop) (f : α → β → α)
    (l : List β) (a : α) (ha : P a) (h : ∀ x b, P x → P (f x b)) :
    P (l.foldl f a) := by
  induction l generalizing a with
  | nil => exact ha
  | cons b rest ih => exact ih (f a b) (h a b ha)

/-- Two folds over the same list agree when the step functions agree on
its elements. -/
theorem foldl_ext_mem {α β : Type} (f g : α → β → α) (l : List β)
    (h : ∀ a b, b ∈ l → f a b = g a b) (a : α) : l.foldl f a = l.foldl g a := by
  induction l generalizing a with
  | nil => rfl
  | cons b rest ih =>
    rw [List.foldl_cons, List.foldl_cons, h a b (List.mem_cons_self _ _)]
    exact ih (fun a b hb => h a b (List.mem_cons_of_mem _ hb)) _

/-- Folding over a list equals folding over its filtered list when the
step function ignores the filtered-out elements. -/
theorem foldl_filter_eq {α β : Type} (f : α → β → α) (good : β → Bool)
    (h : ∀ a b, good b = false → f a b = a) (l : List β) (a : α) :
    l.foldl f a = (l.filter good).foldl f a := by
  induction l generalizing a with
  | nil => rfl
  | cons b rest ih =>
    cases hg : good b with
    | true => simp only [List.foldl_cons, List.filter_cons, hg, if_true]; exact ih (f a b)
    | false =>
      simp only [List.foldl_cons, List.filter_cons, hg, h a b hg]
      exact ih a

/-- Every entry of the map carries a nonempty key that parses to its time. -/
def goodEntries (dparse : String → Option ℚ) (m : List Entry) : Prop :=
  ∀ e ∈ m, e.ts ≠ "" ∧ dparse e.ts = some e.time

/-- Every entry's value row has exactly four slots. -/
def len4 (m : List Entry) : Prop := ∀ e ∈ m, e.values.length = 4

theorem ingestPoint_goodEntries (dparse : String → Option ℚ) (idx : ℕ) (f : ℚ)
    (m : List Entry) (p : RawPoint) (hm : goodEntries dparse m) :
    goodEntries dparse (ingestPoint dparse idx f m p) := by
  rw [ingestPoint_eq]
  cases hp : pkey dparse p with
  | none => exact hm
  | some key =>
    obtain ⟨_, hk, hd⟩ := pkey_some_spec dparse p key hp
    intro e he
    rcases List.mem_map.mp he with ⟨e', he', heq⟩
    have he'ts : e'.ts ≠ "" ∧ dparse e'.ts = some e'.time := by
      by_cases hany : m.any (fun e => e.ts = key)
      · rw [if_pos hany] at he'
        exact hm e' he'
      · rw [if_neg hany] at he'
        rcases List.mem_append.mp he' with h | h
        · exact hm e' h
        · rcases List.mem_singleton.mp h with rfl
          refine ⟨hk, ?_⟩
          rcases Option.isSome_iff_exists.mp hd with ⟨t, ht⟩
          simp [ht]
    rw [← heq]
    split
    · exact he'ts
    · exact he'ts

theorem ingestPoint_len4 (dparse : String → Option ℚ) (idx : ℕ) (f : ℚ)
    (m : List Entry) (p : RawPoint) (hm : len4 m) :
    len4 (ingestPoint dparse idx f m p) := by
  rw [ingestPoint_eq]
  cases hp : pkey dparse p with
  | none => exact hm
  | some key =>
    intro e he
    rcases List.mem_map.mp he with ⟨e', he', heq⟩
    have he'l : e'.values.length = 4 := by
      by_cases hany : m.any (fun e => e.ts = key)
      · rw [if_pos hany] at he'
        exact hm e' he'
      · rw [if_neg hany] at he'
        rcases List.mem_append.mp he' with h | h
        · exact hm e' h
        · rcases List.mem_singleton.mp h with rfl
          simp
    rw [← heq]
    split
    · simpa using he'l
    · exact he'l

theorem ingestResponse_goodEntries (dparse : String → Option ℚ) (idx : ℕ)
    (col : ColumnSel) (resp : Option (List RawPoint)) (m : List Entry)
    (hm : goodEntries dparse m) :
    goodEntries dparse (ingestResponse dparse idx col resp m) := by
  cases resp with
  | none => exact hm
  | some pts =>
    exact foldl_preserve _ _ pts m hm
      (fun x b hx => ingestPoint_goodEntries dparse idx (factorOf col) x b hx)

theorem ingestResponse_len4 (dparse : String → Option ℚ) (idx : ℕ)
    (col : ColumnSel) (resp : Option (List RawPoint)) (m : List Entry)
    (hm : len4 m) :
    len4 (ingestResponse dparse idx col resp m) := by
  cases resp with
  | none => exact hm
  | some pts =>
    exact foldl_preserve _ _ pts m hm
      (fun x b hx => ingestPoint_len4 dparse idx (factorOf col) x b hx)

theorem ingestAll_goodEntries (dparse : String → Option ℚ) (columns : List ColumnSel)
    (responses : List (Option (List RawPoint))) :
    goodEntries dparse (ingestAll dparse columns responses) := by
  rw [ingestAll]
  refine foldl_preserve _ _ _ [] (by intro e he; cases he) ?_
  intro x b hx
  exact ingestResponse_goodEntries dparse b.1 b.2.2 b.2.1 x hx

theorem ingestAll_len4 (dparse : String → Option ℚ) (columns : List ColumnSel)
    (responses : List (Option (List RawPoint))) :
    len4 (ingestAll dparse columns responses) := by
  rw [ingestAll]
  refine foldl_preserve _ _ _ [] (by intro e he; cases he) ?_
  intro x b hx
  exact ingestResponse_len4 dparse b.1 b.2.2 b.2.1 x hx

theorem sortEntries_perm (l : List Entry) : (sortEntries l).Perm l :=
  List.perm_insertionSort entryLe l

theorem sortEntries_mem (l : List Entry) (e : Entry) :
    e ∈ sortEntries l ↔ e ∈ l :=
  (sortEntries_perm l).mem_iff

/-- Forward-filling never changes an entry's key or time. -/
theorem fillRows_ts_time (lasts : List JV) (rows : List Entry) :
    (fillRows lasts rows).map (fun e => (e.ts, e.time)) =
      rows.map (fun e => (e.ts, e.time)) := by
  induction rows generalizing lasts with
  | nil => rfl
  | cons e rest ih => simp [fillRows, ih]

theorem fillRows_mem_ts_time (lasts : List JV) (rows : List Entry) (e : Entry)
    (he : e ∈ fillRows lasts rows) :
    ∃ e' ∈ rows, e.ts = e'.ts ∧ e.time = e'.time := by
  have h := fillRows_ts_time lasts rows
  have : (e.ts, e.time) ∈ rows.map (fun e => (e.ts, e.time)) := by
    rw [← h]
    exact List.mem_map_of_mem _ he
  rcases List.mem_map.mp this with ⟨e', he', heq⟩
  exact ⟨e', he', congrArg Prod.fst heq.symm, congrArg Prod.snd heq.symm⟩

/-- Claim C10: every point whose timestamp is missing, empty or unparsable
is silently excluded — every aggregated entry carries a nonempty timestamp
that parses to its epoch time, and the whole aggregation (hence every
output series, including the sum) is unchanged when such points are
filtered away beforehand.  The computation is total, so no error is
raised. -/
theorem C10_unparsable_excluded (dparse : String → Option ℚ)
    (columns : List ColumnSel) (responses : List (Option (List RawPoint))) :
    (∀ e ∈ aggregate dparse columns responses, e.ts ≠ "" ∧ dparse e.ts = some e.time) ∧
    aggregate dparse columns responses =
      aggregate dparse columns
        (responses.map (Option.map (fun pts => pts.filter fun p => (pkey dparse p).isSome))) := by
  constructor
  · intro e he
    rw [aggregate] at he
    rcases fillRows_mem_ts_time _ _ e he with ⟨e', he', hts, htime⟩
    rw [mergedTimeline, sortEntries_mem] at he'
    have := ingestAll_goodEntries dparse columns responses e' he'
    rw [hts, htime]
    exact this
  · have hresp : ∀ (idx : ℕ) (col : ColumnSel) (resp : Option (List RawPoint)) (m : List Entry),
        ingestResponse dparse idx col resp m =
          ingestResponse dparse idx col
            (Option.map (fun pts => pts.filter fun p => (pkey dparse p).isSome) resp) m := by
      intro idx col resp m
      cases resp with
      | none => rfl
      | some pts =>
        simp only [ingestResponse, Option.map_some']
        refine foldl_filter_eq _ _ ?_ pts m
        intro a b hb
        rw [ingestPoint_eq]
        cases hp : pkey dparse b with
        | none => rfl
        | some key => rw [hp] at hb; cases hb
    rw [aggregate, aggregate, mergedTimeline, mergedTimeline, ingestAll, ingestAll]
    congr 2
    rw [List.zip_map_left, List.enum_map, List.foldl_map]
    refine foldl_ext_mem _ _ _ ?_ []
    intro m x _
    exact hresp x.1 x.2.2 x.2.1 m

/-! ## Numeric safety (claim C5) -/

/-- A slot that is `null` or holds a finite number. -/
def finOrNull (v : JV) : Prop := v = none ∨ ∃ q : ℚ, v = some (.fin q)

theorem finOrNull_coerce (raw : JV) (f : ℚ) (h : finOrNull raw) :
    finOrNull (coerceValue raw f) := by
  rcases h with h | ⟨q, h⟩
  · subst h; exact Or.inl rfl
  · subst h
    exact Or.inr ⟨q * f, by simp [coerceValue, JsNum.isNaN, jsMulQ]⟩

theorem finOrNull_rawOf (p : RawPoint) (hl : finOrNull p.left) (hr : finOrNull p.right) :
    finOrNull (rawOf p) := by
  rw [rawOf]
  cases hpl : p.left with
  | none => exact hr
  | some v => rw [hpl] at hl; exact hl

/-- Every entry of the map holds only finite-or-null slots. -/
def mapFin (m : List Entry) : Prop := ∀ e ∈ m, ∀ v ∈ e.values, finOrNull v

theorem ingestPoint_mapFin (dparse : String → Option ℚ) (idx : ℕ) (f : ℚ)
    (m : List Entry) (p : RawPoint) (hm : mapFin m)
    (hp : finOrNull p.left ∧ finOrNull p.right) :
    mapFin (ingestPoint dparse idx f m p) := by
  rw [ingestPoint_eq]
  cases hk : pkey dparse p with
  | none => exact hm
  | some key =>
    intro e he v hv
    rcases List.mem_map.mp he with ⟨e', he', heq⟩
    have he'fin : ∀ v ∈ e'.values, finOrNull v := by
      by_cases hany : m.any (fun e => e.ts = key)
      · rw [if_pos hany] at he'
        exact hm e' he'
      · rw [if_neg hany] at he'
        rcases List.mem_append.mp he' with h | h
        · exact hm e' h
        · rcases List.mem_singleton.mp h with rfl
          intro v hv
          rcases List.eq_of_mem_replicate hv with rfl
          exact Or.inl rfl
    rw [← heq] at hv
    by_cases hts : e'.ts = key
    · rw [if_pos hts] at hv
      simp only at hv
      rcases List.mem_or_eq_of_mem_set hv with h | h
      · exact he'fin v h
      · subst h
        exact finOrNull_coerce _ f (finOrNull_rawOf p hp.1 hp.2)
    · rw [if_neg hts] at hv
      exact he'fin v hv

/-- Generic preservation of a predicate along `List.foldl`, where the step
law is only needed for elements of the list. -/
theorem foldl_preserve_mem {α β : Type} (P : α → Prop) (f : α → β → α)
    (l : List β) (a : α) (ha : P a) (h : ∀ x b, b ∈ l → P x → P (f x b)) :
    P (l.foldl f a) := by
  induction l generalizing a with
  | nil => exact ha
  | cons b rest ih =>
    exact ih (f a b) (h a b (List.mem_cons_self _ _) ha)
      (fun x c hc hx => h x c (List.mem_cons_of_mem _ hc) hx)

theorem mem_responses_of_mem_enum_zip {responses : List (Option (List RawPoint))}
    {columns : List ColumnSel} {b : ℕ × Option (List RawPoint) × ColumnSel}
    (hb : b ∈ (responses.zip columns).enum) : b.2.1 ∈ responses := by
  have h2 : b.2 ∈ responses.zip columns := by
    have h3 : b.2 ∈ (responses.zip columns).enum.map Prod.snd :=
      List.mem_map_of_mem _ hb
    rwa [List.enum_map_snd] at h3
  exact (List.of_mem_zip h2).1

theorem ingestAll_mapFin (dparse : String → Option ℚ) (columns : List ColumnSel)
    (responses : List (Option (List RawPoint)))
    (hfin : ∀ r ∈ responses, ∀ pts, r = some pts →
      ∀ p ∈ pts, finOrNull p.left ∧ finOrNull p.right) :
    mapFin (ingestAll dparse columns responses) := by
  rw [ingestAll]
  refine foldl_preserve_mem _ _ _ [] (by intro e he; cases he) ?_
  intro x b hb hx
  cases hresp : b.2.1 with
  | none => simpa [ingestResponse, hresp] using hx
  | some pts =>
    have hpts := hfin _ (mem_responses_of_mem_enum_zip hb) pts hresp
    simp only [ingestResponse, hresp]
    refine foldl_preserve_mem _ _ _ x hx ?_
    intro y p hp hy
    exact ingestPoint_mapFin dparse b.1 (factorOf b.2.2) y p hy (hpts p hp)

theorem fillRow_fin (vs lasts : List JV)
    (hv : ∀ v ∈ vs, finOrNull v) (hl : ∀ v ∈ lasts, finOrNull v) :
    (∀ v ∈ (fillRow vs lasts).1, finOrNull v) ∧
      (∀ v ∈ (fillRow vs lasts).2, finOrNull v) := by
  induction vs generalizing lasts with
  | nil =>
    cases lasts <;> simp [fillRow]
  | cons v vs ih =>
    cases lasts with
    | nil => simp [fillRow]
    | cons last lasts =>
      have hih := ih lasts (fun w hw => hv w (List.mem_cons_of_mem _ hw))
        (fun w hw => hl w (List.mem_cons_of_mem _ hw))
      have hvv : finOrNull v := hv v (List.mem_cons_self _ _)
      have hll : finOrNull last := hl last (List.mem_cons_self _ _)
      rw [fillRow]
      cases hg : isGap v <;>
        constructor <;>
        intro w hw <;>
        simp only [hg, if_true, if_false, Bool.false_eq_true] at hw <;>
        rcases List.mem_cons.mp hw with rfl | hw2 <;>
        first
          | exact hll
          | exact hvv
          | exact hih.1 w hw2
          | exact hih.2 w hw2

theorem fillRows_mapFin (lasts : List JV) (rows : List Entry)
    (hl : ∀ v ∈ lasts, finOrNull v) (hr : mapFin rows) :
    mapFin (fillRows lasts rows) := by
  induction rows generalizing lasts with
  | nil => intro e he; cases he
  | cons e rest ih =>
    intro e' he' v hv
    rw [fillRows] at he'
    have hrow := fillRow_fin e.values lasts
      (fun w hw => hr e (List.mem_cons_self _ _) w hw) hl
    rcases List.mem_cons.mp he' with rfl | he'2
    · exact hrow.1 v hv
    · exact ih (fillRow e.values lasts).2 hrow.2
        (fun e2 he2 => hr e2 (List.mem_cons_of_mem _ he2)) e' he'2 v hv

theorem includedOf_mem (pairs : List (Bool × JV)) (v : JsNum)
    (h : v ∈ includedOf pairs) : ∃ p ∈ pairs, p.2 = some v := by
  rcases List.mem_filterMap.mp h with ⟨p, hp, heq⟩
  refine ⟨p, hp, ?_⟩
  by_cases hinc : p.1
  · rw [if_pos hinc] at heq
    cases hw : p.2 with
    | none => simp [hw] at heq
    | some w =>
      simp only [hw] at heq
      cases hn : w.isNaN with
      | true => simp [hn] at heq
      | false =>
        simp only [hn, Bool.false_eq_true, if_false, Option.some.injEq] at heq
        rw [heq]
  · rw [if_neg hinc] at heq; cases heq

theorem foldl_jsAdd_fin_of (l : List JsNum) :
    ∀ a : JsNum, (∀ v ∈ l, ∃ q : ℚ, v = .fin q) → (∃ q : ℚ, a = .fin q) →
      ∃ q : ℚ, l.foldl jsAdd a = .fin q := by
  induction l with
  | nil => intro a _ ha; exact ha
  | cons v vs ih =>
    intro a hl ha
    rcases hl v (List.mem_cons_self _ _) with ⟨qv, hv⟩
    rcases ha with ⟨qa, haq⟩
    rw [List.foldl_cons]
    refine ih (jsAdd a v) (fun w hw => hl w (List.mem_cons_of_mem _ hw)) ?_
    exact ⟨qa + qv, by subst hv haq; simp [jsAdd]⟩

theorem sumRow_fin (includes : List Bool) (vals : List JV)
    (hv : ∀ v ∈ vals, finOrNull v) : finOrNull (sumRow includes vals) := by
  rw [sumRow, sumFold_none]
  cases hio : includedOf (includes.zip vals) with
  | nil => simp only [hio]; exact Or.inl rfl
  | cons v vs =>
    simp only [hio]
    have hfin : ∀ w ∈ v :: vs, ∃ q : ℚ, w = .fin q := by
      intro w hw
      have hwm : w ∈ includedOf (includes.zip vals) := by rw [hio]; exact hw
      rcases includedOf_mem _ w hwm with ⟨p, hp, hpv⟩
      have : finOrNull p.2 := hv p.2 (List.of_mem_zip hp).2
      rcases this with h | ⟨q, h⟩
      · rw [h] at hpv; cases hpv
      · rw [h] at hpv
        injection hpv with hpv
        exact ⟨q, hpv.symm⟩
    rcases foldl_jsAdd_fin_of vs v (fun w hw => hfin w (List.mem_cons_of_mem _ hw))
      (hfin v (List.mem_cons_self _ _)) with ⟨q, hq⟩
    exact Or.inr ⟨q, by rw [hq]⟩

theorem includedOf_eq_nil_of_all_gap (pairs : List (Bool × JV))
    (h : ∀ p ∈ pairs, p.1 = true → isGap p.2 = true) :
    includedOf pairs = [] := by
  rw [includedOf, List.filterMap_eq_nil_iff]
  intro p hp
  by_cases hinc : p.1
  · rw [if_pos hinc]
    have hg := h p hp hinc
    cases hv : p.2 with
    | none => rfl
    | some w =>
      rw [hv] at hg
      simp only [isGap] at hg
      simp [hg]
  · rw [if_neg hinc]

/-- Claim C5 (amended): the aggregation never throws (it is a total
function); a `null` or `NaN` raw sample is coerced to `null` before
scaling; a non-finite or unparsable scale factor is treated as `1`; and
for inputs whose raw samples are all finite-or-null, every produced series
value — including the computed sum — is finite-or-null, so no `NaN` or
`Infinity` arises.  An `Infinity` raw sample, however, is *not* coerced to
`null`: only the `NaN` check exists in the code, so infinities propagate
into the produced series. -/
theorem C5_numeric_guards :
    (∀ f : ℚ, coerceValue none f = none ∧ coerceValue (some .nan) f = none) ∧
    (∀ c : ColumnSel, c.scaleParsed.isFinite = false → factorOf c = 1) ∧
    ∀ (dparse : String → Option ℚ) (columns : List ColumnSel)
      (responses : List (Option (List RawPoint))) (includes : List Bool),
      (∀ r ∈ responses, ∀ pts, r = some pts →
        ∀ p ∈ pts, finOrNull p.left ∧ finOrNull p.right) →
      (∀ e ∈ aggregate dparse columns responses, ∀ v ∈ e.values, finOrNull v) ∧
      (∀ pt ∈ sumPoints includes (aggregate dparse columns responses), finOrNull pt.2) := by
  refine ⟨?_, ?_, ?_⟩
  · intro f
    exact ⟨rfl, by simp [coerceValue, JsNum.isNaN]⟩
  · intro c hc
    rw [factorOf]
    cases hs : c.scaleParsed with
    | fin q => rw [hs, JsNum.isFinite] at hc; cases hc
    | nan => rfl
    | inf => rfl
    | ninf => rfl
  · intro dparse columns responses includes hfin
    have hagg : mapFin (aggregate dparse columns responses) := by
      rw [aggregate]
      refine fillRows_mapFin _ _ ?_ ?_
      · intro v hv
        rcases List.mem_map.mp hv with ⟨_, _, heq⟩
        exact Or.inl heq.symm
      · intro e he
        rw [mergedTimeline, sortEntries_mem] at he
        exact ingestAll_mapFin dparse columns responses hfin e he
    refine ⟨hagg, ?_⟩
    intro pt hpt
    rcases List.mem_map.mp hpt with ⟨e, he, heq⟩
    rw [← heq]
    exact sumRow_fin includes e.values (fun v hv => hagg e he v hv)

/-- A model of `Date.parse` on the handful of ISO timestamps the demo
inputs use (`Date.parse` of each string below is the listed epoch-millis
value; anything else is unparsable). -/
def dparseDemo (s : String) : Option ℚ :=
  if s = "2024-01-01T00:00:00Z" then some 1704067200000
  else if s = "2024-01-01T01:00:00Z" then some 1704070800000
  else if s = "2024-01-01T02:00:00Z" then some 1704074400000
  else none

/-- Four columns with scale `1`, as parsed from the default `'1'` inputs. -/
def demoCols : List ColumnSel := [⟨.fin 1⟩, ⟨.fin 1⟩, ⟨.fin 1⟩, ⟨.fin 1⟩]

/-- One response whose single point carries the value `Infinity`. -/
def demoRespsInf : List (Option (List RawPoint)) :=
  [some [⟨some "2024-01-01T00:00:00Z", some .inf, none⟩], none, none, none]

/-- Claim C5 counterexample: an `Infinity` sample value is not coerced to
`null` — it survives into the produced series (`raw * factor` with a raw
infinity and factor `1` stays infinite), so a non-finite value escapes to
the renderer. -/
theorem C5_counterexample :
    seriesPoints (aggregate dparseDemo demoCols demoRespsInf) 0
      = [(1704067200000, some JsNum.inf)] ∧
    some JsNum.inf ≠ (none : JV) ∧ JsNum.inf.isFinite = false := by
  refine ⟨?_, by simp, rfl⟩
  norm_num [aggregate, mergedTimeline, ingestAll, ingestResponse, ingestPoint,
    demoRespsInf, demoCols, dparseDemo, factorOf, coerceValue, rawOf,
    JsNum.isNaN, jsMulQ, sortEntries, List.insertionSort, List.orderedInsert,
    fillRows, fillRow, isGap, seriesPoints, List.enum, List.enumFrom,
    List.zip, List.zipWith]

/-- One response whose single point carries the finite value `7`. -/
def demoRespsFin : List (Option (List RawPoint)) :=
  [some [⟨some "2024-01-01T00:00:00Z", some (.fin 7), none⟩], none, none, none]

/-- Claim C5 witness: `NaN` raws coerce to `null`, a `NaN` scale parses to
factor `1`, and on an all-finite demo input the produced sum value is
finite-or-null. -/
theorem C5_numeric_guards_witness :
    coerceValue (some JsNum.nan) 3 = none ∧
    factorOf ⟨JsNum.nan⟩ = 1 ∧
    ∀ pt ∈ sumPoints [true, true, false, false]
      (aggregate dparseDemo demoCols demoRespsFin), finOrNull pt.2 := by
  refine ⟨(C5_numeric_guards.1 3).2, C5_numeric_guards.2.1 ⟨JsNum.nan⟩ rfl, ?_⟩
  refine (C5_numeric_guards.2.2 dparseDemo demoCols demoRespsFin
    [true, true, false, false] ?_).2
  intro r hr pts hpts p hp
  rw [demoRespsFin] at hr
  simp only [List.mem_cons, List.not_mem_nil, or_false] at hr
  rcases hr with rfl | rfl | rfl | rfl
  · injection hpts with hpts
    rw [← hpts] at hp
    rcases List.mem_singleton.mp hp with rfl
    exact ⟨Or.inr ⟨7, rfl⟩, Or.inl rfl⟩
  · cases hpts
  · cases hpts
  · cases hpts

/-! ## Merged-timeline structure (claim C1) -/

theorem any_ts_iff_mem (m : List Entry) (key : String) :
    m.any (fun e => e.ts = key) = true ↔ key ∈ m.map Entry.ts := by
  rw [List.any_eq_true]
  constructor
  · rintro ⟨e, he, hdec⟩
    have h : e.ts = key := by simpa using hdec
    exact h ▸ List.mem_map_of_mem _ he
  · intro h
    rcases List.mem_map.mp h with ⟨e, he, heq⟩
    exact ⟨e, he, by simpa using heq⟩

theorem map_ts_update (m1 : List Entry) (key : String) (g : Entry → List JV) :
    (m1.map fun e => if e.ts = key then { e with values := g e } else e).map Entry.ts
      = m1.map Entry.ts := by
  rw [List.map_map]
  refine List.map_congr_left ?_
  intro e _
  by_cases h : e.ts = key
  · simp [h]
  · simp [h]

theorem ingestPoint_keys (dparse : String → Option ℚ) (idx : ℕ) (f : ℚ)
    (m : List Entry) (p : RawPoint) :
    (ingestPoint dparse idx f m p).map Entry.ts =
      match pkey dparse p with
      | none => m.map Entry.ts
      | some key =>
        if key ∈ m.map Entry.ts then m.map Entry.ts else m.map Entry.ts ++ [key] := by
  rw [ingestPoint_eq]
  cases hk : pkey dparse p with
  | none => rfl
  | some key =>
    simp only []
    rw [map_ts_update]
    by_cases hany : m.any (fun e => e.ts = key) = true
    · rw [if_pos hany, if_pos ((any_ts_iff_mem m key).mp hany)]
    · rw [if_neg hany, if_neg (fun hmem => hany ((any_ts_iff_mem m key).mpr hmem)),
        List.map_append]
      rfl

theorem ingestPoint_nodupKeys (dparse : String → Option ℚ) (idx : ℕ) (f : ℚ)
    (m : List Entry) (p : RawPoint) (hm : (m.map Entry.ts).Nodup) :
    ((ingestPoint dparse idx f m p).map Entry.ts).Nodup := by
  cases hk : pkey dparse p with
  | none => simp only [ingestPoint_keys, hk]; exact hm
  | some key =>
    simp only [ingestPoint_keys, hk]
    by_cases hmem : key ∈ m.map Entry.ts
    · rw [if_pos hmem]; exact hm
    · rw [if_neg hmem]
      rw [List.nodup_append]
      exact ⟨hm, List.nodup_singleton key,
        fun a ha hb => hmem ((List.mem_singleton.mp hb) ▸ ha)⟩

theorem ingestPoint_mem_keys (dparse : String → Option ℚ) (idx : ℕ) (f : ℚ)
    (m : List Entry) (p : RawPoint) (s : String) :
    s ∈ (ingestPoint dparse idx f m p).map Entry.ts ↔
      s ∈ m.map Entry.ts ∨ pkey dparse p = some s := by
  cases hk : pkey dparse p with
  | none => simp [ingestPoint_keys, hk]
  | some key =>
    simp only [ingestPoint_keys, hk]
    by_cases hmem : key ∈ m.map Entry.ts
    · rw [if_pos hmem]
      constructor
      · exact fun h => Or.inl h
      · rintro (h | h)
        · exact h
        · injection h with h; exact h ▸ hmem
    · rw [if_neg hmem, List.mem_append, List.mem_singleton]
      constructor
      · rintro (h | h)
        · exact Or.inl h
        · exact Or.inr (by rw [h])
      · rintro (h | h)
        · exact Or.inl h
        · injection h with h; exact Or.inr h.symm

theorem ingest_points_mem_keys (dparse : String → Option ℚ) (idx : ℕ) (f : ℚ)
    (pts : List RawPoint) (s : String) :
    ∀ m : List Entry,
      (s ∈ (pts.foldl (ingestPoint dparse idx f) m).map Entry.ts ↔
        s ∈ m.map Entry.ts ∨ ∃ p ∈ pts, pkey dparse p = some s) := by
  induction pts with
  | nil => intro m; simp
  | cons p rest ih =>
    intro m
    rw [List.foldl_cons, ih (ingestPoint dparse idx f m p), ingestPoint_mem_keys]
    simp only [List.exists_mem_cons_iff]
    tauto

theorem ingestResponse_mem_keys (dparse : String → Option ℚ) (idx : ℕ)
    (col : ColumnSel) (resp : Option (List RawPoint)) (m : List Entry) (s : String) :
    s ∈ (ingestResponse dparse idx col resp m).map Entry.ts ↔
      s ∈ m.map Entry.ts ∨ ∃ pts, resp = some pts ∧ ∃ p ∈ pts, pkey dparse p = some s := by
  cases resp with
  | none => simp [ingestResponse]
  | some pts =>
    rw [ingestResponse]
    rw [ingest_points_mem_keys]
    simp

theorem ingestAll_mem_keys (dparse : String → Option ℚ) (columns : List ColumnSel)
    (responses : List (Option (List RawPoint))) (s : String) :
    s ∈ (ingestAll dparse columns responses).map Entry.ts ↔
      ∃ x ∈ (responses.zip columns).enum, ∃ pts, x.2.1 = some pts ∧
        ∃ p ∈ pts, pkey dparse p = some s := by
  rw [ingestAll]
  have hgen : ∀ (l : List (ℕ × Option (List RawPoint) × ColumnSel)) (m : List Entry),
      s ∈ (l.foldl (fun m x => ingestResponse dparse x.1 x.2.2 x.2.1 m) m).map Entry.ts ↔
        s ∈ m.map Entry.ts ∨ ∃ x ∈ l, ∃ pts, x.2.1 = some pts ∧
          ∃ p ∈ pts, pkey dparse p = some s := by
    intro l
    induction l with
    | nil => intro m; simp
    | cons x rest ih =>
      intro m
      rw [List.foldl_cons, ih, ingestResponse_mem_keys]
      constructor
      · rintro ((h | h) | ⟨y, hy, hP⟩)
        · exact Or.inl h
        · exact Or.inr ⟨x, List.mem_cons_self _ _, h⟩
        · exact Or.inr ⟨y, List.mem_cons_of_mem _ hy, hP⟩
      · rintro (h | ⟨y, hy, hP⟩)
        · exact Or.inl (Or.inl h)
        · rcases List.mem_cons.mp hy with rfl | hy2
          · exact Or.inl (Or.inr hP)
          · exact Or.inr ⟨y, hy2, hP⟩
  rw [hgen]
  simp

theorem ingestAll_nodupKeys (dparse : String → Option ℚ) (columns : List ColumnSel)
    (responses : List (Option (List RawPoint))) :
    ((ingestAll dparse columns responses).map Entry.ts).Nodup := by
  rw [ingestAll]
  refine foldl_preserve (fun m => (m.map Entry.ts).Nodup) _ _ [] (by simp) ?_
  intro x b hx
  cases hresp : b.2.1 with
  | none => simpa [ingestResponse, hresp] using hx
  | some pts =>
    simp only [ingestResponse, hresp]
    refine foldl_preserve (fun m => (m.map Entry.ts).Nodup) _ _ x hx ?_
    intro y p hy
    exact ingestPoint_nodupKeys dparse b.1 (factorOf b.2.2) y p hy

theorem exists_enum_zip_iff (responses : List (Option (List RawPoint)))
    (columns : List ColumnSel) (hlen : responses.length = columns.length)
    (P : Option (List RawPoint) → Prop) :
    (∃ x ∈ (responses.zip columns).enum, P x.2.1) ↔ ∃ r ∈ responses, P r := by
  rw [List.exists_mem_enum]
  constructor
  · rintro ⟨i, hi, hp⟩
    have hrl : i < responses.length := by
      rw [List.length_zip] at hi; omega
    simp only [List.getElem_zip] at hp
    exact ⟨responses[i], List.getElem_mem hrl, by simpa using hp⟩
  · rintro ⟨r, hr, hp⟩
    rcases List.mem_iff_getElem.mp hr with ⟨i, hi, hri⟩
    refine ⟨i, by rw [List.length_zip]; omega, ?_⟩
    simp only [List.getElem_zip]
    simpa [hri] using hp

/-- Claim C1 (amended): when distinct parsable timestamp strings parse to
distinct times (as for canonical `Date.parse` input) and the responses
align with the columns, the merged timeline is strictly ascending in time
with no duplicates; a timestamp key appears in it exactly once precisely
when some response contains a point with that parsable key (so it is the
union of all *distinct parsable* timestamps); and its length is at least
the number of distinct parsable timestamps of each single input series —
points with duplicate or unparsable timestamps do not add entries, so the
raw series length is not a lower bound. -/
theorem C1_merge_completeness (dparse : String → Option ℚ) (columns : List ColumnSel)
    (responses : List (Option (List RawPoint)))
    (hlen : responses.length = columns.length)
    (hinj : ∀ s₁ s₂ : String, (dparse s₁).isSome → (dparse s₂).isSome →
      dparse s₁ = dparse s₂ → s₁ = s₂) :
    (mergedTimeline dparse columns responses).Pairwise (fun a b => a.time < b.time) ∧
    ((mergedTimeline dparse columns responses).map Entry.ts).Nodup ∧
    (∀ s : String, s ∈ (mergedTimeline dparse columns responses).map Entry.ts ↔
      ∃ r ∈ responses, ∃ pts, r = some pts ∧ ∃ p ∈ pts, pkey dparse p = some s) ∧
    (∀ r ∈ responses, ∀ pts, r = some pts →
      ((pts.filterMap (pkey dparse)).dedup).length ≤
        (mergedTimeline dparse columns responses).length) := by
  have hperm : (mergedTimeline dparse columns responses).Perm
      (ingestAll dparse columns responses) := sortEntries_perm _
  have hmapperm : ((mergedTimeline dparse columns responses).map Entry.ts).Perm
      ((ingestAll dparse columns responses).map Entry.ts) := hperm.map _
  have hnd : ((mergedTimeline dparse columns responses).map Entry.ts).Nodup :=
    hmapperm.nodup_iff.mpr (ingestAll_nodupKeys dparse columns responses)
  have hmem : ∀ s : String, s ∈ (mergedTimeline dparse columns responses).map Entry.ts ↔
      ∃ r ∈ responses, ∃ pts, r = some pts ∧ ∃ p ∈ pts, pkey dparse p = some s := by
    intro s
    rw [hmapperm.mem_iff, ingestAll_mem_keys,
      exists_enum_zip_iff responses columns hlen
        (fun r => ∃ pts, r = some pts ∧ ∃ p ∈ pts, pkey dparse p = some s)]
  refine ⟨?_, hnd, hmem, ?_⟩
  · have hsorted : (mergedTimeline dparse columns responses).Pairwise entryLe :=
      List.sorted_insertionSort entryLe _
    have hgood : goodEntries dparse (mergedTimeline dparse columns responses) :=
      fun e he => ingestAll_goodEntries dparse columns responses e (hperm.subset he)
    have hne : (mergedTimeline dparse columns responses).Pairwise
        (fun a b => a.ts ≠ b.ts) := by
      have h1 : ((mergedTimeline dparse columns responses).map Entry.ts).Pairwise
          (· ≠ ·) := hnd
      exact (List.pairwise_map).mp h1
    refine List.Pairwise.imp_of_mem ?_ (hsorted.and hne)
    intro a b ha hb hab
    rcases hab with ⟨hle, hne2⟩
    rcases lt_or_eq_of_le hle with h | h
    · exact h
    · exfalso
      apply hne2
      have hga := hgood a ha
      have hgb := hgood b hb
      refine hinj a.ts b.ts ?_ ?_ ?_
      · rw [hga.2]; rfl
      · rw [hgb.2]; rfl
      · rw [hga.2, hgb.2, h]
  · intro r hr pts hpts
    have hsub : (pts.filterMap (pkey dparse)).dedup ⊆
        (mergedTimeline dparse columns responses).map Entry.ts := by
      intro s hs
      rw [List.mem_dedup] at hs
      rcases List.mem_filterMap.mp hs with ⟨p, hp, hps⟩
      exact (hmem s).mpr ⟨r, hr, pts, hpts, p, hp, hps⟩
    have hsp := (List.nodup_dedup _).subperm hsub
    calc ((pts.filterMap (pkey dparse)).dedup).length
        ≤ ((mergedTimeline dparse columns responses).map Entry.ts).length :=
          hsp.length_le
      _ = (mergedTimeline dparse columns responses).length := List.length_map _ _

/-- One response whose single point carries an unparsable timestamp. -/
def demoRespsBad : List (Option (List RawPoint)) :=
  [some [⟨some "garbage", some (.fin 1), none⟩], none, none, none]

/-- Claim C1 counterexample: the claim requires the merged-timeline length
to be at least the length of the largest input series, but a series whose
single point has an unparsable timestamp is dropped entirely: its length
is `1` while the merged timeline is empty. -/
theorem C1_counterexample :
    (mergedTimeline dparseDemo demoCols demoRespsBad).length = 0 ∧
    ([(⟨some "garbage", some (JsNum.fin 1), none⟩ : RawPoint)]).length = 1 ∧
    ¬ (([(⟨some "garbage", some (JsNum.fin 1), none⟩ : RawPoint)]).length ≤
        (mergedTimeline dparseDemo demoCols demoRespsBad).length) := by
  have h : mergedTimeline dparseDemo demoCols demoRespsBad = [] := by
    norm_num [mergedTimeline, ingestAll, ingestResponse, ingestPoint,
      demoRespsBad, demoCols, dparseDemo, sortEntries, List.insertionSort,
      List.enum, List.enumFrom, List.zip, List.zipWith]
  rw [h]
  norm_num

theorem dparseDemo_inj : ∀ s₁ s₂ : String, (dparseDemo s₁).isSome →
    (dparseDemo s₂).isSome → dparseDemo s₁ = dparseDemo s₂ → s₁ = s₂ := by
  intro s₁ s₂ h₁ h₂ heq
  simp only [dparseDemo] at h₁ h₂ heq
  split_ifs at h₁ h₂ heq <;> subst_vars <;> simp_all

/-- Claim C1 witness: on the demo input (one series, one parsable point,
aligned four-column setup) the merged timeline is strictly ascending with
no duplicate timestamps. -/
theorem C1_merge_completeness_witness :
    (mergedTimeline dparseDemo demoCols demoRespsFin).Pairwise
      (fun a b => a.time < b.time) ∧
    ((mergedTimeline dparseDemo demoCols demoRespsFin).map Entry.ts).Nodup := by
  have h := C1_merge_completeness dparseDemo demoCols demoRespsFin rfl dparseDemo_inj
  exact ⟨h.1, h.2.1⟩

/-! ## Per-series refinement (claim C4) -/

theorem getD_replicate_none (n idx : ℕ) :
    (List.replicate n (none : JV)).getD idx none = none := by
  induction n generalizing idx with
  | zero => cases idx <;> rfl
  | succ n ih =>
    cases idx with
    | zero => rfl
    | succ k => simpa [List.replicate_succ] using ih k

theorem getD_set_self (l : List JV) (idx : ℕ) (v : JV) (h : idx < l.length) :
    (l.set idx v).getD idx none = v := by
  induction l generalizing idx with
  | nil => simp at h
  | cons x xs ih =>
    cases idx with
    | zero => rfl
    | succ k =>
      have hk : k < xs.length := by simpa using h
      simpa [List.set] using ih k hk

theorem getD_set_other (l : List JV) (i j : ℕ) (v : JV) (h : i ≠ j) :
    (l.set j v).getD i none = l.getD i none := by
  induction l generalizing i j with
  | nil => rfl
  | cons x xs ih =>
    cases j with
    | zero =>
      cases i with
      | zero => exact absurd rfl h
      | succ k => rfl
    | succ m =>
      cases i with
      | zero => rfl
      | succ k =>
        simpa [List.set] using ih k m (fun hkm => h (by rw [hkm]))

/-- Slot `idx` of every entry is described by the function `g` of its key. -/
def slotInv (idx : ℕ) (g : String → JV) (m : List Entry) : Prop :=
  ∀ e ∈ m, e.values.getD idx none = g e.ts

/-- Processing a point of another column never changes slot `idx`, and new
entries hold `null` there. -/
theorem ingestPoint_slotInv_other (dparse : String → Option ℚ) (idx idx' : ℕ)
    (f' : ℚ) (m : List Entry) (p : RawPoint) (g : String → JV) (hne : idx' ≠ idx)
    (hm : slotInv idx g m)
    (hnew : ∀ s, (dparse s).isSome → s ≠ "" → s ∉ m.map Entry.ts → g s = none) :
    slotInv idx g (ingestPoint dparse idx' f' m p) := by
  cases hk : pkey dparse p with
  | none => simp only [ingestPoint_eq, hk]; exact hm
  | some key =>
    simp only [ingestPoint_eq, hk]
    obtain ⟨hts, hkey, hdp⟩ := pkey_some_spec dparse p key hk
    intro e he
    rcases List.mem_map.mp he with ⟨e', he', heq⟩
    subst heq
    have hslot : ∀ l : List JV, ((l.set idx' (coerceValue (rawOf p) f')).getD idx none)
        = l.getD idx none :=
      fun l => getD_set_other l idx idx' _ (fun h => hne h.symm)
    have hbase : e' ∈ m ∨ (e' = ⟨key, (dparse key).getD 0, List.replicate 4 none⟩ ∧
        key ∉ m.map Entry.ts) := by
      by_cases hany : m.any (fun e => e.ts = key) = true
      · rw [if_pos hany] at he'; exact Or.inl he'
      · rw [if_neg hany] at he'
        rcases List.mem_append.mp he' with h | h
        · exact Or.inl h
        · exact Or.inr ⟨List.mem_singleton.mp h,
            fun hmm => hany ((any_ts_iff_mem m key).mpr hmm)⟩
    by_cases hts' : e'.ts = key
    · rw [if_pos hts']
      show (e'.values.set idx' (coerceValue (rawOf p) f')).getD idx none = g e'.ts
      rw [hslot]
      rcases hbase with h | ⟨rfl, hnewkey⟩
      · exact hm e' h
      · show (List.replicate 4 (none : JV)).getD idx none = g key
        rw [getD_replicate_none]
        exact (hnew key hdp hkey hnewkey).symm
    · rw [if_neg hts']
      rcases hbase with h | ⟨rfl, _⟩
      · exact hm e' h
      · exact absurd rfl hts'

/-- Processing a point of this column sets slot `idx` of its key's entry to
the coerced value and leaves every other entry's slot `idx` unchanged. -/
theorem ingestPoint_slotInv_self (dparse : String → Option ℚ) (idx : ℕ) (f' : ℚ)
    (m : List Entry) (p : RawPoint) (g : String → JV) (hidx4 : idx < 4)
    (hm : slotInv idx g m) (hgm : goodEntries dparse m) (hl4 : len4 m) :
    slotInv idx
      (fun s => if p.ts = some s then coerceValue (rawOf p) f' else g s)
      (ingestPoint dparse idx f' m p) := by
  cases hk : pkey dparse p with
  | none =>
    simp only [ingestPoint_eq, hk]
    intro e he
    have hge := hgm e he
    have hsome : (dparse e.ts).isSome := by rw [hge.2]; rfl
    have hbad : ¬ p.ts = some e.ts := by
      intro hts
      simp only [pkey, hts] at hk
      rw [if_neg hge.1, if_pos hsome] at hk
      cases hk
    simp only [if_neg hbad]
    exact hm e he
  | some key =>
    simp only [ingestPoint_eq, hk]
    obtain ⟨hts, hkey, hdp⟩ := pkey_some_spec dparse p key hk
    intro e he
    rcases List.mem_map.mp he with ⟨e', he', heq⟩
    subst heq
    have hbase : e' ∈ m ∨ e' = ⟨key, (dparse key).getD 0, List.replicate 4 none⟩ := by
      by_cases hany : m.any (fun e => e.ts = key) = true
      · rw [if_pos hany] at he'; exact Or.inl he'
      · rw [if_neg hany] at he'
        rcases List.mem_append.mp he' with h | h
        · exact Or.inl h
        · exact Or.inr (List.mem_singleton.mp h)
    by_cases hts' : e'.ts = key
    · rw [if_pos hts']
      have hlen : e'.values.length = 4 := by
        rcases hbase with h | rfl
        · exact hl4 e' h
        · simp
      show (e'.values.set idx (coerceValue (rawOf p) f')).getD idx none =
        if p.ts = some e'.ts then coerceValue (rawOf p) f' else g e'.ts
      rw [getD_set_self _ _ _ (by rw [hlen]; exact hidx4)]
      have hcond : p.ts = some e'.ts := by rw [hts, hts']
      rw [if_pos hcond]
    · rw [if_neg hts']
      have he'm : e' ∈ m := by
        rcases hbase with h | rfl
        · exact h
        · exact absurd rfl hts'
      have hbadp : ¬ p.ts = some e'.ts := by
        rw [hts]
        intro hc
        injection hc with hc
        exact hts' hc.symm
      show e'.values.getD idx none = if p.ts = some e'.ts then coerceValue (rawOf p) f' else g e'.ts
      rw [if_neg hbadp]
      exact hm e' he'm
theorem slotInv_ext (idx : ℕ) (F G : String → JV) (m : List Entry)
    (h : ∀ s, F s = G s) (hm : slotInv idx F m) : slotInv idx G m :=
  fun e he => (hm e he).trans (h e.ts)

/-- Characterisation of slot `idx` after folding the points of column
`idx`'s own response: each entry's slot holds the coerced value of the
(unique) point with its key, or keeps its previous description. -/
theorem ingest_points_slotInv (dparse : String → Option ℚ) (idx : ℕ) (f' : ℚ)
    (pts : List RawPoint) (hidx4 : idx < 4) :
    ∀ (m : List Entry) (g : String → JV),
      (pts.filterMap RawPoint.ts).Nodup →
      goodEntries dparse m → len4 m →
      slotInv idx g m →
      slotInv idx
        (fun s => match pts.find? (fun q => q.ts = some s) with
          | some q => coerceValue (rawOf q) f'
          | none => g s)
        (pts.foldl (ingestPoint dparse idx f') m) := by
  induction pts with
  | nil =>
    intro m g _ _ _ hm e he
    simpa [List.find?_nil] using hm e he
  | cons p rest ih =>
    intro m g hnd hgm hl4 hm
    rw [List.foldl_cons]
    have hnd' : (rest.filterMap RawPoint.ts).Nodup := by
      cases hpts : p.ts with
      | none => simpa [List.filterMap_cons, hpts] using hnd
      | some s =>
        rw [List.filterMap_cons, hpts] at hnd
        exact (List.nodup_cons.mp hnd).2
    have hstep := ingestPoint_slotInv_self dparse idx f' m p g hidx4 hm hgm hl4
    have hmain := ih (ingestPoint dparse idx f' m p)
      (fun s => if p.ts = some s then coerceValue (rawOf p) f' else g s)
      hnd' (ingestPoint_goodEntries dparse idx f' m p hgm)
      (ingestPoint_len4 dparse idx f' m p hl4) hstep
    intro e he
    rw [hmain e he]
    show (match rest.find? (fun q => q.ts = some e.ts) with
        | some q => coerceValue (rawOf q) f'
        | none => if p.ts = some e.ts then coerceValue (rawOf p) f' else g e.ts) =
      (match (p :: rest).find? (fun q => q.ts = some e.ts) with
        | some q => coerceValue (rawOf q) f'
        | none => g e.ts)
    by_cases hp : p.ts = some e.ts
    · have hhead : (p :: rest).find? (fun q => q.ts = some e.ts) = some p :=
        List.find?_cons_of_pos _ (by simpa using hp)
      have hrest : rest.find? (fun q => q.ts = some e.ts) = none := by
        rw [List.find?_eq_none]
        intro q hq hq2
        have hq3 : q.ts = some e.ts := by simpa using hq2
        have hmem : e.ts ∈ rest.filterMap RawPoint.ts :=
          List.mem_filterMap.mpr ⟨q, hq, hq3⟩
        rw [List.filterMap_cons, hp] at hnd
        exact (List.nodup_cons.mp hnd).1 hmem
      rw [hhead, hrest]
      simp [hp]
    · have hhead : (p :: rest).find? (fun q => q.ts = some e.ts) =
          rest.find? (fun q => q.ts = some e.ts) :=
        List.find?_cons_of_neg _ (by simpa using hp)
      rw [hhead]
      cases hfr : rest.find? (fun q => q.ts = some e.ts) with
      | some q => rfl
      | none => simp [hp]

/-- The invariant carried across the responses of *other* columns: slot
`idx` is described by `g`, keys are well-formed, rows have four slots, and
`g` is `null` on well-formed keys not yet present. -/
def otherInv (dparse : String → Option ℚ) (idx : ℕ) (g : String → JV)
    (m : List Entry) : Prop :=
  slotInv idx g m ∧ goodEntries dparse m ∧ len4 m ∧
    ∀ s, (dparse s).isSome → s ≠ "" → s ∉ m.map Entry.ts → g s = none

theorem ingestPoint_otherInv (dparse : String → Option ℚ) (idx idx' : ℕ) (f' : ℚ)
    (m : List Entry) (p : RawPoint) (g : String → JV) (hne : idx' ≠ idx)
    (hm : otherInv dparse idx g m) :
    otherInv dparse idx g (ingestPoint dparse idx' f' m p) := by
  obtain ⟨h1, h2, h3, h4⟩ := hm
  refine ⟨ingestPoint_slotInv_other dparse idx idx' f' m p g hne h1 h4,
    ingestPoint_goodEntries dparse idx' f' m p h2,
    ingestPoint_len4 dparse idx' f' m p h3, ?_⟩
  intro s hs1 hs2 hs3
  refine h4 s hs1 hs2 ?_
  intro hmem
  exact hs3 ((ingestPoint_mem_keys dparse idx' f' m p s).mpr (Or.inl hmem))

theorem ingestResponse_otherInv (dparse : String → Option ℚ) (idx idx' : ℕ)
    (col : ColumnSel) (resp : Option (List RawPoint)) (m : List Entry)
    (g : String → JV) (hne : idx' ≠ idx) (hm : otherInv dparse idx g m) :
    otherInv dparse idx g (ingestResponse dparse idx' col resp m) := by
  cases resp with
  | none => exact hm
  | some pts =>
    exact foldl_preserve _ _ pts m hm
      (fun x b hx => ingestPoint_otherInv dparse idx idx' (factorOf col) x b g hne hx)

/-- After the whole ingestion, slot `idx` of every entry equals the
coerced-and-scaled resample of column `idx`'s own response at the entry's
key. -/
theorem ingestAll_slot (dparse : String → Option ℚ) (columns : List ColumnSel)
    (responses : List (Option (List RawPoint))) (idx : ℕ) (pts : List RawPoint)
    (col : ColumnSel) (hidx4 : idx < 4)
    (hresp : responses[idx]? = some (some pts))
    (hcol : columns[idx]? = some col)
    (hnd : (pts.filterMap RawPoint.ts).Nodup) :
    slotInv idx (fun s => coerceValue (specResample pts s) (factorOf col))
      (ingestAll dparse columns responses) := by
  have hir : idx < responses.length := by
    by_contra h
    push_neg at h
    rw [List.getElem?_eq_none h] at hresp
    cases hresp
  have hic : idx < columns.length := by
    by_contra h
    push_neg at h
    rw [List.getElem?_eq_none h] at hcol
    cases hcol
  have hrespe : responses[idx] = some pts := by
    have := List.getElem?_eq_getElem hir
    rw [this] at hresp
    injection hresp
  have hcole : columns[idx] = col := by
    have := List.getElem?_eq_getElem hic
    rw [this] at hcol
    injection hcol
  rw [ingestAll]
  have hzl : idx < (responses.zip columns).length := by
    rw [List.length_zip]; omega
  have hLl : idx < (responses.zip columns).enum.length := by
    rw [List.enum_length]; exact hzl
  have hLidx : (responses.zip columns).enum[idx] = (idx, (some pts, col)) := by
    rw [List.getElem_enum, List.getElem_zip, hrespe, hcole]
  have hsplit : (responses.zip columns).enum =
      ((responses.zip columns).enum.take idx) ++
        (idx, ((some pts : Option (List RawPoint)), col)) ::
          ((responses.zip columns).enum.drop (idx + 1)) := by
    rw [← hLidx, ← List.drop_eq_getElem_cons hLl, List.take_append_drop]
  have htake : ∀ x ∈ (responses.zip columns).enum.take idx, x.1 ≠ idx := by
    intro x hx
    rcases List.mem_iff_getElem.mp hx with ⟨j, hj, hxj⟩
    have hjlt : j < idx := by
      rw [List.length_take] at hj; omega
    have hjL : j < (responses.zip columns).enum.length := by
      rw [List.length_take] at hj
      rw [List.enum_length, List.length_zip]
      omega
    have : ((responses.zip columns).enum.take idx)[j] =
        (responses.zip columns).enum[j] := List.getElem_take _
    rw [this, List.getElem_enum] at hxj
    rw [← hxj]
    simp
    omega
  have hdrop : ∀ x ∈ (responses.zip columns).enum.drop (idx + 1), x.1 ≠ idx := by
    intro x hx
    rcases List.mem_iff_getElem.mp hx with ⟨j, hj, hxj⟩
    rw [List.length_drop] at hj
    have hje : idx + 1 + j < (responses.zip columns).enum.length := by omega
    have hjd : j < ((responses.zip columns).enum.drop (idx + 1)).length := by
      rw [List.length_drop]; omega
    have : ((responses.zip columns).enum.drop (idx + 1))[j] =
        (responses.zip columns).enum[idx + 1 + j] := List.getElem_drop _
    rw [this, List.getElem_enum] at hxj
    rw [← hxj]
    simp
    omega
  rw [hsplit, List.foldl_append, List.foldl_cons]
  -- phase 1: other responses before column idx
  have hphase1 : otherInv dparse idx (fun _ => none)
      (((responses.zip columns).enum.take idx).foldl
        (fun m x => ingestResponse dparse x.1 x.2.2 x.2.1 m) []) := by
    refine foldl_preserve_mem _ _ _ []
      ⟨fun e he => absurd he (List.not_mem_nil e),
        fun e he => absurd he (List.not_mem_nil e),
        fun e he => absurd he (List.not_mem_nil e), fun _ _ _ _ => rfl⟩ ?_
    intro x b hb hx
    exact ingestResponse_otherInv dparse idx b.1 b.2.2 b.2.1 x (fun _ => none)
      (htake b hb) hx
  -- phase 2: column idx's own response
  set m1 := ((responses.zip columns).enum.take idx).foldl
    (fun m x => ingestResponse dparse x.1 x.2.2 x.2.1 m) [] with hm1
  set gstar := fun s => coerceValue (specResample pts s) (factorOf col) with hgstar
  have hphase2 : slotInv idx gstar
      (pts.foldl (ingestPoint dparse idx (factorOf col)) m1) := by
    have h := ingest_points_slotInv dparse idx (factorOf col) pts hidx4 m1
      (fun _ => none) hnd hphase1.2.1 hphase1.2.2.1 hphase1.1
    refine slotInv_ext idx _ _ _ ?_ h
    intro s
    rw [hgstar]
    cases hf : pts.find? (fun q => q.ts = some s) with
    | some q => simp only [specResample, hf]
    | none => simp only [specResample, hf, coerceValue]
  have hgood2 : goodEntries dparse (pts.foldl (ingestPoint dparse idx (factorOf col)) m1) :=
    foldl_preserve _ _ pts m1 hphase1.2.1
      (fun x b hx => ingestPoint_goodEntries dparse idx (factorOf col) x b hx)
  have hl42 : len4 (pts.foldl (ingestPoint dparse idx (factorOf col)) m1) :=
    foldl_preserve _ _ pts m1 hphase1.2.2.1
      (fun x b hx => ingestPoint_len4 dparse idx (factorOf col) x b hx)
  have hnew2 : ∀ s, (dparse s).isSome → s ≠ "" →
      s ∉ (pts.foldl (ingestPoint dparse idx (factorOf col)) m1).map Entry.ts →
      gstar s = none := by
    intro s hs1 hs2 hs3
    rw [hgstar]
    cases hf : pts.find? (fun q => q.ts = some s) with
    | none => simp only [specResample, hf, coerceValue]
    | some q =>
      exfalso
      have hq3 : q.ts = some s := by
        have := List.find?_some hf
        simpa using this
      have hqm : q ∈ pts := List.mem_of_find?_eq_some hf
      have hpk : pkey dparse q = some s := by
        simp only [pkey, hq3]
        rw [if_neg hs2, if_pos hs1]
      exact hs3 ((ingest_points_mem_keys dparse idx (factorOf col) pts s m1).mpr
        (Or.inr ⟨q, hqm, hpk⟩))
  -- phase 3: other responses after column idx
  refine (foldl_preserve_mem (otherInv dparse idx gstar) _ _ _
    ⟨hphase2, hgood2, hl42, hnew2⟩ ?_).1
  intro x b hb hx
  exact ingestResponse_otherInv dparse idx b.1 b.2.2 b.2.1 x gstar (hdrop b hb) hx

theorem fillRow_len (vals lasts : List JV) (hlen : vals.length = lasts.length) :
    (fillRow vals lasts).1.length = vals.length ∧
      (fillRow vals lasts).2.length = vals.length := by
  induction vals generalizing lasts with
  | nil =>
    cases lasts with
    | nil => simp [fillRow]
    | cons _ _ => simp at hlen
  | cons v vs ih =>
    cases lasts with
    | nil => simp at hlen
    | cons last lasts =>
      have hlen' : vs.length = lasts.length := by simpa using hlen
      have hih := ih lasts hlen'
      rw [fillRow]
      cases hg : isGap v <;> simp [hg, hih.1, hih.2]

theorem fillRow_getD (vals lasts : List JV) (idx : ℕ) (hlen : vals.length = lasts.length) :
    (fillRow vals lasts).1.getD idx none =
      (if isGap (vals.getD idx none) then lasts.getD idx none else vals.getD idx none) ∧
    (fillRow vals lasts).2.getD idx none =
      (if isGap (vals.getD idx none) then lasts.getD idx none else vals.getD idx none) := by
  induction vals generalizing lasts idx with
  | nil =>
    cases lasts with
    | nil => simp [fillRow, isGap]
    | cons _ _ => simp at hlen
  | cons v vs ih =>
    cases lasts with
    | nil => simp at hlen
    | cons last lasts =>
      have hlen' : vs.length = lasts.length := by simpa using hlen
      cases idx with
      | zero =>
        rw [fillRow]
        cases hg : isGap v <;> simp [hg]
      | succ k =>
        have hih := ih lasts k hlen'
        rw [fillRow]
        cases hg : isGap v with
        | true =>
          simp only [hg, if_true, List.getD_cons_succ]
          exact hih
        | false =>
          simp only [hg, Bool.false_eq_true, if_false, List.getD_cons_succ]
          exact hih

theorem ffillGo_cons_gap (carry v : JV) (vs : List JV) (h : isGap v = true) :
    ffillGo carry (v :: vs) = carry :: ffillGo carry vs := by
  rw [ffillGo, if_pos h]

theorem ffillGo_cons_val (carry v : JV) (vs : List JV) (h : isGap v = false) :
    ffillGo carry (v :: vs) = v :: ffillGo v vs := by
  rw [ffillGo, if_neg (by rw [h]; exact Bool.false_ne_true)]

/-- The column-`idx` view of the row-wise forward fill is the forward fill
of the column. -/
theorem fillRows_col (rows : List Entry) (idx : ℕ) :
    ∀ lasts : List JV, (∀ e ∈ rows, e.values.length = lasts.length) →
      (fillRows lasts rows).map (fun e => e.values.getD idx none) =
        ffillGo (lasts.getD idx none) (rows.map (fun e => e.values.getD idx none)) := by
  induction rows with
  | nil => intro lasts _; rfl
  | cons e rest ih =>
    intro lasts hlen
    have hle : e.values.length = lasts.length := hlen e (List.mem_cons_self _ _)
    have hr := fillRow_getD e.values lasts idx hle
    have hr2len : (fillRow e.values lasts).2.length = lasts.length := by
      rw [(fillRow_len e.values lasts hle).2, hle]
    have htl : (fillRows (fillRow e.values lasts).2 rest).map
        (fun e => e.values.getD idx none) =
        ffillGo ((fillRow e.values lasts).2.getD idx none)
          (rest.map (fun e => e.values.getD idx none)) :=
      ih (fillRow e.values lasts).2
        (fun e' he' => by rw [hlen e' (List.mem_cons_of_mem _ he'), hr2len])
    show (fillRow e.values lasts).1.getD idx none ::
        (fillRows (fillRow e.values lasts).2 rest).map (fun e => e.values.getD idx none)
      = ffillGo (lasts.getD idx none)
          (e.values.getD idx none :: rest.map (fun e => e.values.getD idx none))
    cases hg : isGap (e.values.getD idx none) with
    | true =>
      rw [ffillGo_cons_gap _ _ _ hg, htl, hr.1, hr.2, hg]
      simp
    | false =>
      rw [ffillGo_cons_val _ _ _ hg, htl, hr.1, hr.2, hg]
      simp

theorem getD_map_const_none (l : List ColumnSel) (idx : ℕ) :
    ((l.map fun _ => (none : JV)).getD idx none) = none := by
  induction l generalizing idx with
  | nil => cases idx <;> rfl
  | cons c cs ih =>
    cases idx with
    | zero => rfl
    | succ k => simpa using ih k

theorem coerce_eq_map_fin (v : JV) (f' : ℚ) (hv : finOrNull v) :
    coerceValue v f' = v.map (fun x => jsMulQ x f') := by
  rcases hv with rfl | ⟨q, rfl⟩
  · rfl
  · simp [coerceValue, JsNum.isNaN]

theorem isGap_map_fin (v : JV) (f' : ℚ) (hv : finOrNull v) :
    isGap (v.map (fun x => jsMulQ x f')) = isGap v := by
  rcases hv with rfl | ⟨q, rfl⟩
  · rfl
  · simp [isGap, jsMulQ, JsNum.isNaN]

/-- Scaling commutes with forward fill on finite-or-null sequences: the
code scales before filling, the spec scales after, and on well-formed data
the two orders coincide. -/
theorem ffillGo_map_comm (f' : ℚ) (vs : List JV)
    (hfin : ∀ v ∈ vs, finOrNull v) :
    ∀ carry : JV, finOrNull carry →
      ffillGo (carry.map (fun x => jsMulQ x f'))
          (vs.map (fun v => v.map (fun x => jsMulQ x f'))) =
        (ffillGo carry vs).map (fun v => v.map (fun x => jsMulQ x f')) := by
  induction vs with
  | nil => intro carry _; rfl
  | cons v vs ih =>
    intro carry hc
    have hv := hfin v (List.mem_cons_self _ _)
    have hrest := fun w hw => hfin w (List.mem_cons_of_mem _ hw)
    rw [List.map_cons, ffillGo, ffillGo, isGap_map_fin v f' hv]
    cases hg : isGap v with
    | true =>
      rw [if_pos rfl, if_pos rfl, List.map_cons]
      rw [ih hrest carry hc]
    | false =>
      rw [if_neg Bool.false_ne_true, if_neg Bool.false_ne_true, List.map_cons]
      rw [ih hrest v hv]

/-- Claim C4 (amended): for every series with distinct, finite-valued raw
points, the produced per-series values equal the spec's
resample → forward-fill → scale pipeline over the merged timeline (the
code scales at ingestion, before forward fill, but the two orders coincide
on finite data, and scale is never materially applied to a slot that is
still null after fill), and the sum series is computed from the already
transformed rows.  With an infinite raw value and scale factor `0` the two
orders genuinely differ, so the finiteness restriction is necessary. -/
theorem C4_transform_order (dparse : String → Option ℚ) (columns : List ColumnSel)
    (responses : List (Option (List RawPoint))) (idx : ℕ) (pts : List RawPoint)
    (col : ColumnSel) (includes : List Bool)
    (hidx4 : idx < 4) (hcols : columns.length = 4)
    (hresp : responses[idx]? = some (some pts))
    (hcol : columns[idx]? = some col)
    (hnd : (pts.filterMap RawPoint.ts).Nodup)
    (hfinp : ∀ p ∈ pts, finOrNull p.left ∧ finOrNull p.right) :
    (seriesPoints (aggregate dparse columns responses) idx).map Prod.snd =
      specPipeline pts ((mergedTimeline dparse columns responses).map Entry.ts)
        (factorOf col) ∧
    sumPoints includes (aggregate dparse columns responses) =
      (aggregate dparse columns responses).map
        (fun e => (e.time, sumRow includes e.values)) := by
  refine ⟨?_, rfl⟩
  have hslot : slotInv idx (fun s => coerceValue (specResample pts s) (factorOf col))
      (mergedTimeline dparse columns responses) := by
    intro e he
    rw [mergedTimeline, sortEntries_mem] at he
    exact ingestAll_slot dparse columns responses idx pts col hidx4 hresp hcol hnd e he
  have hl4 : len4 (mergedTimeline dparse columns responses) := by
    intro e he
    rw [mergedTimeline, sortEntries_mem] at he
    exact ingestAll_len4 dparse columns responses e he
  have h1 : (seriesPoints (aggregate dparse columns responses) idx).map Prod.snd =
      (aggregate dparse columns responses).map (fun e => e.values.getD idx none) := by
    rw [seriesPoints, List.map_map]
    rfl
  rw [h1, aggregate]
  rw [fillRows_col (mergedTimeline dparse columns responses) idx
    (columns.map fun _ => none)
    (fun e he => by rw [hl4 e he, List.length_map, hcols])]
  rw [getD_map_const_none]
  have h2 : (mergedTimeline dparse columns responses).map
      (fun e => e.values.getD idx none) =
      ((mergedTimeline dparse columns responses).map Entry.ts).map
        (fun s => coerceValue (specResample pts s) (factorOf col)) := by
    rw [List.map_map]
    exact List.map_congr_left (fun e he => hslot e he)
  rw [h2]
  have hfinres : ∀ v ∈ ((mergedTimeline dparse columns responses).map Entry.ts).map
      (specResample pts), finOrNull v := by
    intro v hv
    rcases List.mem_map.mp hv with ⟨s, _, heq⟩
    rw [← heq]
    cases hf : pts.find? (fun q => q.ts = some s) with
    | none => simp only [specResample, hf]; exact Or.inl rfl
    | some q =>
      simp only [specResample, hf]
      exact finOrNull_rawOf q (hfinp q (List.mem_of_find?_eq_some hf)).1
        (hfinp q (List.mem_of_find?_eq_some hf)).2
  have h3 : ((mergedTimeline dparse columns responses).map Entry.ts).map
      (fun s => coerceValue (specResample pts s) (factorOf col)) =
      (((mergedTimeline dparse columns responses).map Entry.ts).map
        (specResample pts)).map (fun v => v.map (fun x => jsMulQ x (factorOf col))) := by
    conv_rhs => rw [List.map_map]
    refine List.map_congr_left ?_
    intro s hs
    show coerceValue (specResample pts s) (factorOf col) =
      (specResample pts s).map (fun x => jsMulQ x (factorOf col))
    refine coerce_eq_map_fin _ _ ?_
    cases hf : pts.find? (fun q => q.ts = some s) with
    | none => simp only [specResample, hf]; exact Or.inl rfl
    | some q =>
      simp only [specResample, hf]
      exact finOrNull_rawOf q (hfinp q (List.mem_of_find?_eq_some hf)).1
        (hfinp q (List.mem_of_find?_eq_some hf)).2
  rw [h3]
  have h4 := ffillGo_map_comm (factorOf col)
    (((mergedTimeline dparse columns responses).map Entry.ts).map (specResample pts))
    hfinres none (Or.inl rfl)
  simp only [Option.map_none'] at h4
  rw [h4]
  rfl

/-- Columns whose first scale parses to `0` (the rest to `1`). -/
def demoColsZero : List ColumnSel := [⟨.fin 0⟩, ⟨.fin 1⟩, ⟨.fin 1⟩, ⟨.fin 1⟩]

/-- One response with a finite point followed by an `Infinity` point. -/
def demoRespsMix : List (Option (List RawPoint)) :=
  [some [⟨some "2024-01-01T00:00:00Z", some (.fin 5), none⟩,
         ⟨some "2024-01-01T01:00:00Z", some .inf, none⟩], none, none, none]

/-- Claim C4 counterexample: with scale factor `0` and an `Infinity` raw
value the code's order (scale at ingestion, then fill) produces
`[0, 0]` — the `NaN` created by `Infinity * 0` is treated as a gap and
forward-filled — while the spec's order (resample, fill, then scale)
produces `[0, NaN]`; the two pipelines differ, so the claimed fixed order
does not describe the code on such input. -/
theorem C4_counterexample :
    (seriesPoints (aggregate dparseDemo demoColsZero demoRespsMix) 0).map Prod.snd
      = [some (JsNum.fin 0), some (JsNum.fin 0)] ∧
    specPipeline [⟨some "2024-01-01T00:00:00Z", some (.fin 5), none⟩,
        ⟨some "2024-01-01T01:00:00Z", some JsNum.inf, none⟩]
      ((mergedTimeline dparseDemo demoColsZero demoRespsMix).map Entry.ts) 0
      = [some (JsNum.fin 0), some JsNum.nan] ∧
    ([some (JsNum.fin 0), some (JsNum.fin 0)] : List JV)
      ≠ [some (JsNum.fin 0), some JsNum.nan] := by
  refine ⟨?_, ?_, by simp⟩
  · norm_num [aggregate, mergedTimeline, ingestAll, ingestResponse, ingestPoint,
      demoRespsMix, demoColsZero, dparseDemo, factorOf, coerceValue, rawOf,
      JsNum.isNaN, jsMulQ, sortEntries, List.insertionSort, List.orderedInsert,
      entryLe, fillRows, fillRow, isGap, seriesPoints, List.enum, List.enumFrom,
      List.zip, List.zipWith]
  · have hne1 : (("2024-01-01T00:00:00Z" : String) = "2024-01-01T01:00:00Z") = False := by
      simp
    have hne2 : (("2024-01-01T01:00:00Z" : String) = "2024-01-01T00:00:00Z") = False := by
      simp
    have hkeys : (mergedTimeline dparseDemo demoColsZero demoRespsMix).map Entry.ts
        = ["2024-01-01T00:00:00Z", "2024-01-01T01:00:00Z"] := by
      norm_num [mergedTimeline, ingestAll, ingestResponse, ingestPoint,
        demoRespsMix, demoColsZero, dparseDemo, factorOf, coerceValue, rawOf,
        JsNum.isNaN, jsMulQ, sortEntries, List.insertionSort, List.orderedInsert,
        entryLe, List.enum, List.enumFrom, List.zip, List.zipWith, hne1, hne2,
        decide_False, decide_True]
    rw [hkeys]
    norm_num [specPipeline, specScale, specResample, ffill, ffillGo, isGap,
      rawOf, jsMulQ, JsNum.isNaN, List.find?, hne1, hne2, decide_False, decide_True]

/-- Claim C4 witness: on the finite demo input the produced series equals
the spec pipeline, and the sum is a function of the transformed rows. -/
theorem C4_transform_order_witness :
    (seriesPoints (aggregate dparseDemo demoCols demoRespsFin) 0).map Prod.snd =
      specPipeline [⟨some "2024-01-01T00:00:00Z", some (.fin 7), none⟩]
        ((mergedTimeline dparseDemo demoCols demoRespsFin).map Entry.ts)
        (factorOf ⟨.fin 1⟩) := by
  refine (C4_transform_order dparseDemo demoCols demoRespsFin 0
    [⟨some "2024-01-01T00:00:00Z", some (.fin 7), none⟩] ⟨.fin 1⟩
    [true, true, false, false] (by norm_num) rfl rfl rfl ?_ ?_).1
  · simp [List.filterMap]
  · intro p hp
    rcases List.mem_singleton.mp hp with rfl
    exact ⟨Or.inr ⟨7, rfl⟩, Or.inl rfl⟩

end IosApp
